import Mathlib

/-!
# Verification of the calendar-to-sheets reconciliation engine

Shallow embedding of the reconciliation and checkpointing engine of the
`google-app-scripts` repository (current engine: `calendar-to-sheets` source
`syncCalendarToSheet` and its helpers, plus the GAS driver in `code.gs`).

Modelling conventions:
* A sheet cell is a `Cell`; a JS `Date` cell is modelled by its millisecond
  timestamp (object identity is not modelled: the engine only ever compares a
  `Date` cell against a projected ISO string, never two `Date` objects).
  `null` and `undefined` are merged into `Cell.null` (the engine guards every
  use of a possibly-absent cell with a truthiness check first).
* The host's `new Date(string)` parser is an explicit parameter
  `pd : String → Option Int` (`some t` means the string parses to the valid
  instant `t`); `Date.prototype.toISOString` is a parameter `iso : Int → String`.
  All engine theorems hold for every parser/formatter.
* A JS `Map` is an association list in insertion order; `set` on an existing
  key overwrites the value in place (as JS does).
* The tabular store is a `Grid` (list of rows, 1-based positions, row 1 the
  header when present), with the range operations used by the engine.
-/

set_option maxHeartbeats 1000000

namespace CalSync

/-- A scalar value held in a sheet cell or produced by the event projection. -/
inductive Cell where
  | str (s : String)
  | date (ms : Int)
  | num (n : Int)
  | boolv (b : Bool)
  | null
deriving DecidableEq, Repr

/-- JS truthiness of a cell value (`!v` in the source negated). -/
def truthy : Cell → Bool
  | .str s => s ≠ ""
  | .date _ => true
  | .num n => n ≠ 0
  | .boolv b => b
  | .null => false

/-- `new Date(value)` for a cell value, as used by the deletion check:
`some t` when the result is a valid date with timestamp `t`, `none` when it is
an Invalid Date.  Strings go through the host parser `pd`.  The `null` case is
unreachable in the engine (guarded by a truthiness check first). -/
def cellToTime (pd : String → Option Int) : Cell → Option Int
  | .str s => pd s
  | .date t => some t
  | .num n => if n.natAbs ≤ 8640000000000000 then some n else none
  | .boolv b => some (if b then 1 else 0)
  | .null => none

/-- One char of the regex class `[\x00-\x20]` in `sanitizeValue`. -/
def isCtrlWs (c : Char) : Bool := c.val ≤ 32

/-- Does `/^[\x00-\x20]*[=+\-@]/` match?  Since the four metacharacters all lie
above `\x20`, the regex matches iff the first character not in `[\x00-\x20]`
exists and is one of them. -/
def needsEscape (s : String) : Bool :=
  match s.data.dropWhile isCtrlWs with
  | c :: _ => c = '=' || c = '+' || c = '-' || c = '@'
  | [] => false

/-- `sanitizeValue` on the string payload: prepend a single quote to the
original (unstripped) string when the regex matches. -/
def sanitizeStr (s : String) : String :=
  if needsEscape s then "\x27" ++ s else s

/-- `sanitizeValue(val)`: strings are escaped when they effectively begin with
a formula metacharacter; every non-string value passes through unchanged. -/
def sanitizeValue : Cell → Cell
  | .str s => .str (sanitizeStr s)
  | v => v

/-- One position of `rowsEqual`'s comparison: strict equality, then the
ISO-string-vs-Date branch, then the sanitizer-escape branch, in source order. -/
def cellEq (pd : String → Option Int) (a b : Cell) : Bool :=
  if a = b then true
  else if (match a, b with
           | .str s, .date tb => decide (pd s = some tb)
           | _, _ => false) then true
  else match a with
       | .str s => s.startsWith "\x27" && decide (Cell.str (s.drop 1) = b)
       | _ => false

/-- `rowsEqual(a, b)`: compare only the first `a.length` positions; a missing
position of `b` reads as `undefined` (here `Cell.null`) and so only matches a
literal `undefined`/`null` in `a`. -/
def rowsEqual (pd : String → Option Int) : List Cell → List Cell → Bool
  | [], _ => true
  | a :: as_, bs => cellEq pd a (bs.headD Cell.null) && rowsEqual pd as_ bs.tail

/-- A source calendar event, via the accessors used by `eventToRow`
(`getDescription() || ''` and `getGuestList() || []` are resolved into the
plain fields). -/
structure CalEvent where
  id : String
  title : String
  startMs : Int
  endMs : Int
  description : String
  location : String
  attendees : List String
deriving DecidableEq, Repr

/-- `eventToRow(event)`: the 7-column projection, sanitizing the free-text
fields and rendering the instants with the host's `toISOString` (`iso`). -/
def eventToRow (iso : Int → String) (e : CalEvent) : List Cell :=
  [ .str e.id
  , .str (sanitizeStr e.title)
  , .str (iso e.startMs)
  , .str (iso e.endMs)
  , .str (sanitizeStr e.description)
  , .str (sanitizeStr e.location)
  , .str (String.intercalate "," e.attendees) ]

/-! ## JS `Map` as an insertion-ordered association list -/

/-- `Map.prototype.set`: overwrite in place when the key exists, else append. -/
def mapSet {α : Type} (m : List (Cell × α)) (k : Cell) (v : α) : List (Cell × α) :=
  if m.any (fun p => p.1 = k) then
    m.map (fun p => if p.1 = k then (k, v) else p)
  else m ++ [(k, v)]

/-- `Map.prototype.get` (as an `Option`). -/
def lookupKey {α : Type} (m : List (Cell × α)) (k : Cell) : Option α :=
  (m.find? (fun p => p.1 = k)).map (·.2)

/-- `Map.prototype.has`. -/
def hasKey {α : Type} (m : List (Cell × α)) (k : Cell) : Bool :=
  m.any (fun p => p.1 = k)

/-- An entry of the row index: 1-based sheet position and the stored values. -/
structure RowEntry where
  rowIndex : Nat
  values : List Cell
deriving DecidableEq, Repr

/-- The indexed loop body of `rowsToMap` (`i` is the current offset). -/
def rowsToMapAux : Nat → List (List Cell) → List (Cell × RowEntry) →
    List (Cell × RowEntry)
  | _, [], m => m
  | i, r :: rest, m =>
      rowsToMapAux (i + 1) rest
        (if truthy (r.headD Cell.null) then
          mapSet m (r.headD Cell.null) ⟨i + 2, r⟩
         else m)

/-- `rowsToMap(rows)`: index body rows by their first cell, skipping rows with
a falsy first cell; offset `i` maps to sheet position `i + 2`. -/
def rowsToMap (rows : List (List Cell)) : List (Cell × RowEntry) :=
  rowsToMapAux 0 rows []

/-- `new Map(desired.map(r => [r[0], r]))`. -/
def buildDesiredMap (rows : List (List Cell)) : List (Cell × List Cell) :=
  rows.foldl (fun m r => mapSet m (r.headD Cell.null) r) []

/-! ## The tabular store -/

abbrev Row := List Cell
abbrev Grid := List Row

/-- Writing a source row into a target row starting at column 1: exactly the
first `vals.length` cells are overwritten, trailing cells are kept. -/
def writeRowAt (target : Row) (vals : Row) : Row :=
  vals ++ target.drop vals.length

/-- Extend the grid with empty rows up to length `n` (ranges below the last
row materialize rows, as in the store). -/
def padTo (g : Grid) (n : Nat) : Grid :=
  g ++ List.replicate (n - g.length) []

/-- Write one row of a `setValues` call at 1-based position `pos`, column 1. -/
def setRow (g : Grid) (pos : Nat) (v : Row) : Grid :=
  (padTo g pos).set (pos - 1) (writeRowAt ((padTo g pos).getD (pos - 1) []) v)

/-- `getRange(pos, 1, vals.length, _).setValues(vals)`. -/
def setValuesAt : Grid → Nat → List Row → Grid
  | g, _, [] => g
  | g, pos, v :: vs => setValuesAt (setRow g pos v) (pos + 1) vs

/-- `deleteRow(pos)` (1-based; engine positions are always in range). -/
def deleteRowAt (g : Grid) (pos : Nat) : Grid :=
  if 1 ≤ pos ∧ pos ≤ g.length then g.eraseIdx (pos - 1) else g

/-- The expected 7-column header of `ensureHeader`. -/
def expectedHeader : Row :=
  [ .str "id", .str "title", .str "start", .str "end"
  , .str "description", .str "location", .str "attendees" ]

/-- The `isValidHeader` test: at least 7 cells and the first four cells are
exactly the labels `id`, `title`, `start`, `end`. -/
def validHeader (r : Row) : Bool :=
  7 ≤ r.length
    && r.getD 0 Cell.null = Cell.str "id"
    && r.getD 1 Cell.null = Cell.str "title"
    && r.getD 2 Cell.null = Cell.str "start"
    && r.getD 3 Cell.null = Cell.str "end"

/-- `ensureHeader(sheet)`: write the header to an empty sheet; otherwise, if
row 1 does not pass `isValidHeader`, insert a blank row at position 1 and
write the header there. -/
def ensureHeader (g : Grid) : Grid :=
  if g.length = 0 then setValuesAt g 1 [expectedHeader]
  else if validHeader (g.headD []) then g
  else setValuesAt ([] :: g) 1 [expectedHeader]

/-! ## The reconciliation pass (`syncCalendarToSheet`) -/

/-- The deletion eligibility test of the source: `rowStart` and `rowEnd`
truthy, `new Date(rowStart)` valid, and the parsed start inside
`[start, end]` inclusive.  (`rowEnd` is never parsed.) -/
def delCond (pd : String → Option Int) (ws we : Int) (values : Row) : Bool :=
  truthy (values.getD 2 Cell.null) && truthy (values.getD 3 Cell.null)
    && (match cellToTime pd (values.getD 2 Cell.null) with
        | some t => decide (ws ≤ t) && decide (t ≤ we)
        | none => false)

/-- The upsert loop: iterate the desired map in insertion order; update in
place on mismatch, collect unknown ids for insertion.  Returns the grid, the
`setValues` update trace (position, written row), and `rowsToInsert`, both in
loop order. -/
def upsertPhase (pd : String → Option Int) (emap : List (Cell × RowEntry)) :
    List (Cell × Row) → Grid → Grid × List (Nat × Row) × List Row
  | [], g => (g, [], [])
  | e :: rest, g =>
      match lookupKey emap e.1 with
      | some ex =>
          if rowsEqual pd e.2 ex.values then upsertPhase pd emap rest g
          else
            let r := upsertPhase pd emap rest (setValuesAt g ex.rowIndex [e.2])
            (r.1, (ex.rowIndex, e.2) :: r.2.1, r.2.2)
      | none =>
          let r := upsertPhase pd emap rest g
          (r.1, r.2.1, e.2 :: r.2.2)

/-- The deletion scan: ids present in the index but absent upstream, kept only
when `delCond` holds; positions in index insertion order. -/
def deletePlan (pd : String → Option Int) (ws we : Int)
    (dmap : List (Cell × Row)) : List (Cell × RowEntry) → List Nat
  | [] => []
  | e :: rest =>
      if hasKey dmap e.1 then deletePlan pd ws we dmap rest
      else if delCond pd ws we e.2.values then
        e.2.rowIndex :: deletePlan pd ws we dmap rest
      else deletePlan pd ws we dmap rest

/-- `toDelete.sort((a,b) => b - a)`: descending order. -/
def insertDesc (x : Nat) : List Nat → List Nat
  | [] => [x]
  | y :: ys => if y ≤ x then x :: y :: ys else y :: insertDesc x ys

/-- Sort a position list in descending order. -/
def sortDesc (l : List Nat) : List Nat := l.foldr insertDesc []

/-- `syncCalendarToSheet(calendar, sheet, {start, end})` applied to the events
returned by `calendar.getEvents(start, end)`.  Returns the final grid. -/
def syncCalendarToSheet (pd : String → Option Int) (iso : Int → String)
    (events : List CalEvent) (ws we : Int) (g0 : Grid) : Grid :=
  let g1 := ensureHeader g0
  let desired := events.map (eventToRow iso)
  let dmap := buildDesiredMap desired
  let emap := rowsToMap g1.tail
  let up := upsertPhase pd emap dmap g1
  let gI := if up.2.2.isEmpty then up.1
            else setValuesAt up.1 (up.1.length + 1) up.2.2
  (sortDesc (deletePlan pd ws we dmap emap)).foldl deleteRowAt gI

/-- The row-removal characterization target: drop the rows whose 0-based
index (counting from `i`) lies in `s`. -/
def removeIdxsAux (s : List Nat) : Nat → Grid → Grid
  | _, [] => []
  | i, r :: g =>
      if i ∈ s then removeIdxsAux s (i + 1) g
      else r :: removeIdxsAux s (i + 1) g

/-- Drop the rows of `g` whose 0-based index lies in `s`. -/
def removeIdxs (g : Grid) (s : List Nat) : Grid := removeIdxsAux s 0 g

/-! ## The GAS driver (`code.gs`): checkpoints and the windowed loop -/

/-- `DEFAULT_SYNC_WINDOW_MS` (one year). -/
def W : Int := 365 * 24 * 60 * 60 * 1000

/-- `TAIL_MERGE_WINDOW_MS` (ten minutes). -/
def TMW : Int := 10 * 60 * 1000

/-- Largest magnitude of a valid JS `Date` timestamp (`±8.64e15` ms). -/
def maxDateMs : Nat := 8640000000000000

/-- Decimal digit value of a character, if any. -/
def digitVal? (c : Char) : Option Nat :=
  if 48 ≤ c.val ∧ c.val ≤ 57 then some (c.val.toNat - 48) else none

/-- Hexadecimal digit value of a character, if any. -/
def hexVal? (c : Char) : Option Nat :=
  if 48 ≤ c.val ∧ c.val ≤ 57 then some (c.val.toNat - 48)
  else if 97 ≤ c.val ∧ c.val ≤ 102 then some (c.val.toNat - 87)
  else if 65 ≤ c.val ∧ c.val ≤ 70 then some (c.val.toNat - 55)
  else none

/-- Longest digit prefix, `none` when no leading digit (`parseInt` core). -/
def parsePrefix (dv : Char → Option Nat) (base : Nat) : List Char → Nat → Bool → Option Nat
  | [], acc, seen => if seen then some acc else none
  | c :: cs, acc, seen =>
      match dv c with
      | some d => parsePrefix dv base cs (acc * base + d) true
      | none => if seen then some acc else none

/-- Whitespace skipped by `parseInt` (ASCII whitespace and line terminators;
the exotic Unicode space code points are not modelled). -/
def isJsSpace (c : Char) : Bool :=
  c = ' ' || c = '\t' || c = '\n' || c = '\x0d' || c = '\x0b' || c = '\x0c'

/-- The unsigned part of `parseInt(s)`: a `0x`/`0X` prefix switches to base
16, otherwise the longest decimal digit prefix is taken. -/
def parseIntCore : List Char → Option Nat
  | '0' :: 'x' :: rest => parsePrefix hexVal? 16 rest 0 false
  | '0' :: 'X' :: rest => parsePrefix hexVal? 16 rest 0 false
  | l => parsePrefix digitVal? 10 l 0 false

/-- `parseInt(s)` (radix auto-detection), as an `Option`: `none` is `NaN`. -/
def jsParseInt (s : String) : Option Int :=
  match s.data.dropWhile isJsSpace with
  | '-' :: rest => (parseIntCore rest).map (fun n => -(n : Int))
  | '+' :: rest => (parseIntCore rest).map (fun n => (n : Int))
  | l => (parseIntCore l).map (fun n => (n : Int))

/-- Decimal digits of `n`, least significant first. -/
def natDigitsRev (n : Nat) : List Nat :=
  if h : n < 10 then [n]
  else
    have : n / 10 < n := Nat.div_lt_self (by omega) (by omega)
    n % 10 :: natDigitsRev (n / 10)

/-- The character of a decimal digit. -/
def digitChar (d : Nat) : Char := Char.ofNat (48 + d)

/-- Decimal rendering of a natural number (models `Number#toString` for
integers in the safe range). -/
def natToStr (n : Nat) : String := ⟨((natDigitsRev n).reverse).map digitChar⟩

/-- Decimal rendering of an integer (`timestamp.getTime().toString()`). -/
def intToDecStr (t : Int) : String :=
  if t < 0 then "-" ++ natToStr t.natAbs else natToStr t.natAbs

/-- `getLastSyncTime`: epoch when no checkpoint is stored; parse with
`parseInt`, reset to epoch on `NaN` or on an Invalid Date.  The returned
`Date` is modelled by its timestamp. -/
def getLastSyncTimeM (stored : Option String) : Int :=
  match stored with
  | none => 0
  | some s =>
      match jsParseInt s with
      | none => 0
      | some t => if t.natAbs ≤ maxDateMs then t else 0

/-- The DETERMINE_RANGE step of `syncCalendarToSheetGAS`: derive start/end,
self-heal a future checkpoint, and apply the rewind under the source's
condition `startIso && (now - start) <= DEFAULT_SYNC_WINDOW_MS`.  Returns
(start, end, stored-checkpoint-after-possible-clear). -/
def syncOneStartEnd (stored : Option String) (startIso endIso : Option Int)
    (now : Int) : Int × Int × Option String :=
  let checkpoint := getLastSyncTimeM stored
  let start0 := startIso.getD checkpoint
  let e := endIso.getD now
  let reset := start0 > e
  let start1 := if reset then getLastSyncTimeM none else start0
  let stored1 := if reset then none else stored
  let start2 := if startIso.isSome && decide (now - start1 ≤ W) then start1 - W
                else start1
  (start2, e, stored1)

/-- The DETERMINE_RANGE step of `syncAllCalendarsToSheetsGAS` for one config:
identical except the rewind condition `(now - start) <= DEFAULT_SYNC_WINDOW_MS`
has no `startIso` guard. -/
def syncAllStartEnd (stored : Option String) (startIso endIso : Option Int)
    (now : Int) : Int × Int × Option String :=
  let checkpoint := getLastSyncTimeM stored
  let start0 := startIso.getD checkpoint
  let e := endIso.getD now
  let reset := start0 > e
  let start1 := if reset then getLastSyncTimeM none else start0
  let stored1 := if reset then none else stored
  let start2 := if decide (now - start1 ≤ W) then start1 - W else start1
  (start2, e, stored1)

/-- One chunk's effective end: `chunkEnd = currentStart + windowSize`, capped
at the target end, with the tail-merge extension when the remaining tail
after `chunkEnd` is at most `TAIL_MERGE_WINDOW_MS`. -/
def effEnd (cs e : Int) : Int :=
  if cs + W < e then (if e - (cs + W) ≤ TMW then e else cs + W) else e

/-- The chunked while-loop: at most `fuel` (`maxIterations = 100`) windows;
each window `[currentStart, effEnd]` is reconciled by `ok` (`true` =
completed without throwing; `false` = threw, aborting the call before the
checkpoint write).  Returns (checkpoint writes in order, final stored
checkpoint, whether the call threw). -/
def syncLoop (ok : Int → Int → Bool) :
    Nat → Int → Int → Option String → List Int × Option String × Bool
  | 0, _, _, st => ([], st, false)
  | fuel + 1, cs, e, st =>
      if cs < e then
        if ok cs (effEnd cs e) then
          let r := syncLoop ok fuel (effEnd cs e) e
            (some (intToDecStr (effEnd cs e)))
          (effEnd cs e :: r.1, r.2.1, r.2.2)
        else ([], st, true)
      else ([], st, false)

/-- `syncCalendarToSheetGAS(startIso, endIso)` as a trace of checkpoint
writes: DETERMINE_RANGE then the chunked loop with `maxIterations = 100`. -/
def syncOneWrites (ok : Int → Int → Bool) (stored : Option String)
    (startIso endIso : Option Int) (now : Int) :
    List Int × Option String × Bool :=
  let r := syncOneStartEnd stored startIso endIso now
  syncLoop ok 100 r.1 r.2.1 r.2.2

/-- N sequential `syncCalendarToSheetGAS` calls with no explicit start or end,
every window succeeding, at the given clock readings; returns the
concatenated checkpoint writes. -/
def runCalls (stored : Option String) : List Int → List Int
  | [] => []
  | now :: rest =>
      let r := syncOneWrites (fun _ _ => true) stored none none now
      r.1 ++ runCalls r.2.1 rest

/-! ## C4: the sanitizer -/

/-- The spec's phrasing of the escape condition: after stripping leading
characters in the range 0x00–0x20, the string begins with `=`, `+`, `-` or
`@`. -/
def leadFormula (s : String) : Prop :=
  ∃ p c r, s.data = p ++ c :: r ∧ (∀ x ∈ p, x.val ≤ 32)
    ∧ (c = '=' ∨ c = '+' ∨ c = '-' ∨ c = '@')

theorem dropWhile_all_cons {p : Char → Bool} :
    ∀ (l : List Char) (c : Char) (r : List Char), (∀ x ∈ l, p x) → p c = false →
      (l ++ c :: r).dropWhile p = c :: r := by
  intro l c r hl hc
  induction l with
  | nil => simp [List.dropWhile, hc]
  | cons x xs ih =>
      have hx : p x = true := hl x (by simp)
      simp only [List.cons_append, List.dropWhile, hx]
      exact ih (fun y hy => hl y (by simp [hy]))

theorem needsEscape_iff (s : String) : needsEscape s = true ↔ leadFormula s := by
  constructor
  · intro h
    unfold needsEscape at h
    rcases hd : s.data.dropWhile isCtrlWs with _ | ⟨c, rest⟩
    · rw [hd] at h; exact absurd h (by simp)
    · rw [hd] at h
      refine ⟨s.data.takeWhile isCtrlWs, c, rest, ?_, ?_, ?_⟩
      · rw [← hd, List.takeWhile_append_dropWhile]
      · intro x hx
        have := List.mem_takeWhile_imp hx
        simpa [isCtrlWs] using this
      · have h2 : (c = '=' || c = '+' || c = '-' || c = '@') = true := h
        simp only [Bool.or_eq_true, decide_eq_true_iff] at h2
        tauto
  · rintro ⟨p, c, r, hs, hp, hc⟩
    have hcf : isCtrlWs c = false := by
      rcases hc with h | h | h | h <;> subst h <;> rfl
    have hall : ∀ x ∈ p, isCtrlWs x := by
      intro x hx; simpa [isCtrlWs] using hp x hx
    unfold needsEscape
    rw [hs, dropWhile_all_cons p c r hall hcf]
    rcases hc with h | h | h | h <;> simp [h]

/-- C4: `sanitizeValue` prepends a single quote to the original, unstripped
string exactly when the string effectively begins with a formula
metacharacter; every other string and every non-string value passes through
unchanged. -/
theorem sanitizeValue_spec :
    (∀ s : String, leadFormula s → sanitizeValue (.str s) = .str ("\x27" ++ s))
    ∧ (∀ s : String, ¬ leadFormula s → sanitizeValue (.str s) = .str s)
    ∧ (∀ v : Cell, (∀ s, v ≠ .str s) → sanitizeValue v = v) := by
  refine ⟨?_, ?_, ?_⟩
  · intro s h
    have : needsEscape s = true := (needsEscape_iff s).mpr h
    simp [sanitizeValue, sanitizeStr, this]
  · intro s h
    have : needsEscape s = false := by
      by_contra hne
      exact h ((needsEscape_iff s).mp (by revert hne; cases needsEscape s <;> simp))
    simp [sanitizeValue, sanitizeStr, this]
  · intro v hv
    cases v with
    | str s => exact absurd rfl (hv s)
    | date t => rfl
    | num n => rfl
    | boolv b => rfl
    | null => rfl

theorem sanitizeValue_spec_witness :
    sanitizeValue (.str "=2+2") = .str "\x27=2+2"
    ∧ sanitizeValue (.str " \t@cmd") = .str "\x27 \t@cmd"
    ∧ sanitizeValue (.str "hello") = .str "hello"
    ∧ sanitizeValue (.num 7) = .num 7 := by
  refine ⟨?_, ?_, ?_, ?_⟩
  · exact sanitizeValue_spec.1 "=2+2" ⟨[], '=', "2+2".data, rfl, by simp, Or.inl rfl⟩
  · exact sanitizeValue_spec.1 " \t@cmd"
      ⟨[' ', '\t'], '@', "cmd".data, rfl, by decide, by simp⟩
  · refine sanitizeValue_spec.2.1 "hello" (fun h => ?_)
    have : needsEscape "hello" = true := (needsEscape_iff "hello").mpr h
    exact absurd this (by decide)
  · exact sanitizeValue_spec.2.2 (.num 7) (fun s => by simp)

/-! ## C2: the row comparator ignores trailing stored columns -/

theorem rowsEqual_append_of_le (pd : String → Option Int) :
    ∀ (a b extra : List Cell), a.length ≤ b.length →
      rowsEqual pd a (b ++ extra) = rowsEqual pd a b := by
  intro a
  induction a with
  | nil => intro b extra _; rfl
  | cons x xs ih =>
      intro b extra hlen
      cases b with
      | nil => simp at hlen
      | cons y ys =>
          simp only [List.cons_append, rowsEqual, List.headD, List.tail]
          rw [ih ys extra (by simpa using hlen)]

theorem rowsEqual_of_pointwise (pd : String → Option Int) :
    ∀ (a b : List Cell) (hlen : a.length ≤ b.length),
      (∀ i (h : i < a.length),
        cellEq pd (a.get ⟨i, h⟩) (b.get ⟨i, Nat.lt_of_lt_of_le h hlen⟩) = true) →
      rowsEqual pd a b = true := by
  intro a
  induction a with
  | nil => intro b _ _; rfl
  | cons x xs ih =>
      intro b hlen heq
      cases b with
      | nil => simp at hlen
      | cons y ys =>
          simp only [rowsEqual, List.headD, List.tail, Bool.and_eq_true]
          constructor
          · exact heq 0 (by simp)
          · exact ih ys (by simpa using hlen)
              (fun i h => heq (i + 1) (by simpa using Nat.succ_lt_succ h))

/-- C2: when every position `0..a.length-1` of the stored row `b` exists and
compares equal to the desired row `a` under the comparator's rules,
`rowsEqual` returns `true` no matter which trailing values follow in the
stored row; the trailing positions never affect the result. -/
theorem rowsEqual_ignores_trailing (pd : String → Option Int)
    (a b extra : List Cell) (hlen : a.length ≤ b.length)
    (heq : ∀ i (h : i < a.length),
      cellEq pd (a.get ⟨i, h⟩) (b.get ⟨i, Nat.lt_of_lt_of_le h hlen⟩) = true) :
    rowsEqual pd a (b ++ extra) = true
    ∧ rowsEqual pd a (b ++ extra) = rowsEqual pd a b := by
  have h2 := rowsEqual_append_of_le pd a b extra hlen
  exact ⟨h2.trans (rowsEqual_of_pointwise pd a b hlen heq), h2⟩

theorem rowsEqual_ignores_trailing_witness :
    rowsEqual (fun _ => none) [.str "a", .str "b"]
      ([.str "a", .str "b"] ++ [.str "extra", .str "columns"]) = true := by
  refine (rowsEqual_ignores_trailing (fun _ => none)
    [.str "a", .str "b"] [.str "a", .str "b"] [.str "extra", .str "columns"]
    (by decide) ?_).1
  intro i h
  simp only [List.length_cons, List.length_nil] at h
  have h01 : i = 0 ∨ i = 1 := by omega
  rcases h01 with h0 | h1
  · subst h0; rfl
  · subst h1; rfl

/-! ## C9: `ensureHeader` -/

/-- The spec-side reading of the header test on a non-empty store. -/
def validHeaderP (g : Grid) : Prop :=
  7 ≤ (g.headD []).length
    ∧ (g.headD []).getD 0 Cell.null = .str "id"
    ∧ (g.headD []).getD 1 Cell.null = .str "title"
    ∧ (g.headD []).getD 2 Cell.null = .str "start"
    ∧ (g.headD []).getD 3 Cell.null = .str "end"

theorem validHeader_iff (g : Grid) : validHeader (g.headD []) = true ↔ validHeaderP g := by
  simp [validHeader, validHeaderP, Bool.and_eq_true, decide_eq_true_iff, and_assoc]

theorem ensureHeader_insert (g : Grid) :
    setValuesAt ([] :: g) 1 [expectedHeader] = expectedHeader :: g := by
  show setValuesAt (setRow ([] :: g) 1 expectedHeader) 2 [] = expectedHeader :: g
  simp [setValuesAt, setRow, padTo, writeRowAt, expectedHeader]

/-- C9 (amended): on a non-empty store, `ensureHeader` is a no-op iff row 1
has at least 7 cells and its first four cells are exactly the labels;
otherwise it pushes the full 7-column header on top, leaving every existing
row's values intact one position lower. -/
theorem ensureHeader_spec (g : Grid) (hg : g ≠ []) :
    (ensureHeader g = g ↔ validHeaderP g)
    ∧ (¬ validHeaderP g → ensureHeader g = expectedHeader :: g) := by
  have hlen : g.length ≠ 0 := by simpa using hg
  constructor
  · constructor
    · intro he
      by_contra hv
      have hvb : validHeader (g.headD []) = false := by
        by_contra hb
        exact hv ((validHeader_iff g).mp (by revert hb; cases validHeader (g.headD []) <;> simp))
      rw [ensureHeader, if_neg hlen, hvb] at he
      simp only [Bool.false_eq_true, if_false, ensureHeader_insert] at he
      have := congrArg List.length he
      simp at this
    · intro hv
      have hvb : validHeader (g.headD []) = true := (validHeader_iff g).mpr hv
      rw [ensureHeader, if_neg hlen, hvb]
      simp
  · intro hv
    have hvb : validHeader (g.headD []) = false := by
      by_contra hb
      exact hv ((validHeader_iff g).mp (by revert hb; cases validHeader (g.headD []) <;> simp))
    rw [ensureHeader, if_neg hlen, hvb]
    simp [ensureHeader_insert]

theorem ensureHeader_spec_witness :
    ensureHeader [expectedHeader] = [expectedHeader]
    ∧ ensureHeader [[Cell.str "data1", Cell.str "x"]]
        = [expectedHeader, [Cell.str "data1", Cell.str "x"]] := by
  constructor
  · exact (ensureHeader_spec [expectedHeader] (by decide)).1.mpr
      ⟨by decide, by decide, by decide, by decide, by decide⟩
  · exact (ensureHeader_spec [[Cell.str "data1", Cell.str "x"]] (by decide)).2
      (by intro h; exact absurd h.1 (by decide))

/-- C9 counterexample: a first row whose first four cells are exactly the
labels but which has only those four cells is not accepted — `ensureHeader`
still inserts a header row, so the store is not left unchanged. -/
theorem ensureHeader_counterexample :
    (([[Cell.str "id", Cell.str "title", Cell.str "start", Cell.str "end"]] : Grid).headD []).getD 0 Cell.null = Cell.str "id"
    ∧ (([[Cell.str "id", Cell.str "title", Cell.str "start", Cell.str "end"]] : Grid).headD []).getD 1 Cell.null = Cell.str "title"
    ∧ (([[Cell.str "id", Cell.str "title", Cell.str "start", Cell.str "end"]] : Grid).headD []).getD 2 Cell.null = Cell.str "start"
    ∧ (([[Cell.str "id", Cell.str "title", Cell.str "start", Cell.str "end"]] : Grid).headD []).getD 3 Cell.null = Cell.str "end"
    ∧ ensureHeader [[Cell.str "id", Cell.str "title", Cell.str "start", Cell.str "end"]]
        ≠ [[Cell.str "id", Cell.str "title", Cell.str "start", Cell.str "end"]] := by
  decide

/-! ## C7: checkpoint reading self-heals -/

/-- C7: `getLastSyncTime` returns the epoch when no checkpoint is stored,
when `parseInt` yields `NaN`, or when the parsed number is outside the valid
`Date` range; any stored value `parseInt` reads as an in-range timestamp is
returned exactly. -/
theorem getLastSyncTime_self_heals :
    getLastSyncTimeM none = 0
    ∧ (∀ s, jsParseInt s = none → getLastSyncTimeM (some s) = 0)
    ∧ (∀ s t, jsParseInt s = some t → maxDateMs < t.natAbs →
        getLastSyncTimeM (some s) = 0)
    ∧ (∀ s t, jsParseInt s = some t → t.natAbs ≤ maxDateMs →
        getLastSyncTimeM (some s) = t) := by
  refine ⟨rfl, ?_, ?_, ?_⟩
  · intro s h; simp [getLastSyncTimeM, h]
  · intro s t h hr; simp [getLastSyncTimeM, h]; omega
  · intro s t h hr; simp [getLastSyncTimeM, h]; omega

theorem getLastSyncTime_self_heals_witness :
    getLastSyncTimeM (some "not-a-number") = 0
    ∧ getLastSyncTimeM (some "99999999999999999999") = 0
    ∧ getLastSyncTimeM (some "1770026400000") = 1770026400000 := by
  refine ⟨?_, ?_, ?_⟩
  · exact getLastSyncTime_self_heals.2.1 "not-a-number" (by decide)
  · exact getLastSyncTime_self_heals.2.2.1 "99999999999999999999"
      99999999999999999999 (by decide) (by decide)
  · exact getLastSyncTime_self_heals.2.2.2 "1770026400000" 1770026400000
      (by decide) (by decide)

/-! ## C5: the recent-checkpoint rewind condition is inverted in the code -/

/-- C5 (code bug): with no explicit start and a checkpoint 1 second old
(well within one window of `now`), `syncCalendarToSheetGAS` applies no
rewind — `startIso && …` makes the rewind fire only when an explicit start
IS supplied — while a 1-second-old explicit start IS rewound by one window;
`syncAllCalendarsToSheetsGAS` rewinds in both cases. -/
theorem syncOne_rewind_inverted :
    (syncOneStartEnd (some "999999999000") none none 1000000000000).1
      = 999999999000
    ∧ 1000000000000 - 999999999000 ≤ W
    ∧ (syncOneStartEnd none (some 999999999000) none 1000000000000).1
      = 999999999000 - W
    ∧ (syncAllStartEnd (some "999999999000") none none 1000000000000).1
      = 999999999000 - W
    ∧ (syncAllStartEnd none (some 999999999000) none 1000000000000).1
      = 999999999000 - W := by
  decide

/-! ## Association-list map lemmas -/

/-- Keys carried by distinct entries of a well-formed map differ. -/
def KeysDistinct {α : Type} (m : List (Cell × α)) : Prop :=
  m.Pairwise (fun p q => p.1 ≠ q.1)

theorem mem_mapSet {α : Type} {m : List (Cell × α)} {k k' : Cell} {v v' : α}
    (h : (k', v') ∈ mapSet m k v) :
    (k' = k ∧ v' = v) ∨ ((k', v') ∈ m ∧ k' ≠ k) := by
  unfold mapSet at h
  by_cases hany : m.any (fun p => p.1 = k) = true
  · rw [if_pos hany] at h
    rcases List.mem_map.mp h with ⟨p, hp, hpe⟩
    by_cases hk : p.1 = k
    · rw [if_pos hk] at hpe
      left
      exact ⟨(congrArg Prod.fst hpe).symm, (congrArg Prod.snd hpe).symm⟩
    · rw [if_neg hk] at hpe
      subst hpe
      exact Or.inr ⟨hp, hk⟩
  · rw [if_neg hany] at h
    rcases List.mem_append.mp h with hm | hone
    · have hk : k' ≠ k := by
        intro hkk
        exact hany (List.any_eq_true.mpr ⟨(k', v'), hm, by simp [hkk]⟩)
      exact Or.inr ⟨hm, hk⟩
    · left
      have := List.mem_singleton.mp hone
      exact ⟨congrArg Prod.fst this, congrArg Prod.snd this⟩

theorem mapSet_mem_of_ne {α : Type} {m : List (Cell × α)} {k k' : Cell}
    {v v' : α} (h : (k', v') ∈ m) (hne : k' ≠ k) :
    (k', v') ∈ mapSet m k v := by
  unfold mapSet
  by_cases hany : m.any (fun p => p.1 = k) = true
  · rw [if_pos hany]
    exact List.mem_map.mpr ⟨(k', v'), h, by simp [hne]⟩
  · rw [if_neg hany]
    exact List.mem_append.mpr (Or.inl h)

theorem mapSet_mem_self {α : Type} (m : List (Cell × α)) (k : Cell) (v : α) :
    (k, v) ∈ mapSet m k v := by
  unfold mapSet
  by_cases hany : m.any (fun p => p.1 = k) = true
  · rw [if_pos hany]
    rcases List.any_eq_true.mp hany with ⟨p, hp, hpk⟩
    refine List.mem_map.mpr ⟨p, hp, ?_⟩
    rw [if_pos (by simpa using hpk)]
  · rw [if_neg hany]
    exact List.mem_append.mpr (Or.inr (by simp))

theorem hasKey_iff_mem {α : Type} {m : List (Cell × α)} {k : Cell} :
    hasKey m k = true ↔ ∃ v, (k, v) ∈ m := by
  unfold hasKey
  rw [List.any_eq_true]
  constructor
  · rintro ⟨p, hp, hpk⟩
    have hk : p.1 = k := by simpa using hpk
    have hpe : (p.1, p.2) = p := rfl
    rw [hk] at hpe
    exact ⟨p.2, by rw [hpe]; exact hp⟩
  · rintro ⟨v, hv⟩
    exact ⟨(k, v), hv, by simp⟩

theorem hasKey_mapSet {α : Type} {m : List (Cell × α)} {k k' : Cell} {v : α} :
    hasKey (mapSet m k v) k' = true ↔ hasKey m k' = true ∨ k' = k := by
  constructor
  · intro h
    rcases hasKey_iff_mem.mp h with ⟨v', hv⟩
    rcases mem_mapSet hv with ⟨hk, _⟩ | ⟨hm, _⟩
    · exact Or.inr hk
    · exact Or.inl (hasKey_iff_mem.mpr ⟨v', hm⟩)
  · intro h
    rcases h with h | h
    · rcases hasKey_iff_mem.mp h with ⟨v', hv⟩
      by_cases hk : k' = k
      · subst hk
        exact hasKey_iff_mem.mpr ⟨v, mapSet_mem_self m k' v⟩
      · exact hasKey_iff_mem.mpr ⟨v', mapSet_mem_of_ne hv hk⟩
    · subst h
      exact hasKey_iff_mem.mpr ⟨v, mapSet_mem_self m k' v⟩

theorem lookupKey_mem {α : Type} {m : List (Cell × α)} {k : Cell} {v : α}
    (h : lookupKey m k = some v) : (k, v) ∈ m := by
  unfold lookupKey at h
  rcases hf : m.find? (fun p => p.1 = k) with _ | p
  · rw [hf] at h; exact absurd h (by simp)
  · rw [hf] at h
    have hp := List.find?_some hf
    have hm := List.mem_of_find?_eq_some hf
    have hv : p.2 = v := by simpa using h
    have hk : p.1 = k := by simpa using hp
    rwa [show ((k, v) : Cell × α) = p from Prod.ext hk.symm hv.symm]

theorem lookupKey_isSome_iff {α : Type} {m : List (Cell × α)} {k : Cell} :
    (lookupKey m k).isSome = true ↔ hasKey m k = true := by
  unfold lookupKey hasKey
  rcases hf : m.find? (fun p => p.1 = k) with _ | q
  · simp only [hf, Option.map_none', Option.isSome_none, Bool.false_eq_true,
      false_iff]
    intro h
    rcases List.any_eq_true.mp h with ⟨q, hq, hqk⟩
    have := List.find?_eq_none.mp hf q hq
    exact absurd hqk (by simpa using this)
  · simp only [hf, Option.map_some', Option.isSome_some, true_iff]
    have hq2 := List.find?_some hf
    exact List.any_eq_true.mpr ⟨q, List.mem_of_find?_eq_some hf, hq2⟩

theorem lookupKey_of_mem {α : Type} {m : List (Cell × α)} {k : Cell} {v : α}
    (hd : KeysDistinct m) (h : (k, v) ∈ m) : lookupKey m k = some v := by
  induction m with
  | nil => simp at h
  | cons p rest ih =>
      rcases List.mem_cons.mp h with hh | ht
      · subst hh
        simp [lookupKey, List.find?]
      · have hpk : p.1 ≠ k := by
          have := (List.pairwise_cons.mp hd).1 (k, v) ht
          simpa using this
        unfold lookupKey
        rw [List.find?_cons_of_neg _ (by simpa using hpk)]
        exact ih (List.pairwise_cons.mp hd).2 ht

theorem keysDistinct_mapSet {α : Type} {m : List (Cell × α)} {k : Cell}
    {v : α} (hd : KeysDistinct m) : KeysDistinct (mapSet m k v) := by
  unfold mapSet
  by_cases hany : m.any (fun p => p.1 = k) = true
  · rw [if_pos hany]
    refine List.Pairwise.map _ ?_ hd
    intro p q hpq
    have hp1 : (if p.1 = k then (k, v) else p).1 = p.1 := by
      by_cases hp : p.1 = k <;> simp [hp]
    have hq1 : (if q.1 = k then (k, v) else q).1 = q.1 := by
      by_cases hq : q.1 = k <;> simp [hq]
    show (if p.1 = k then (k, v) else p).1 ≠ (if q.1 = k then (k, v) else q).1
    rw [hp1, hq1]
    exact hpq
  · rw [if_neg hany]
    refine List.pairwise_append.mpr ⟨hd, List.pairwise_singleton _ _, ?_⟩
    intro p hp q hq
    have hq1 : q = (k, v) := List.mem_singleton.mp hq
    subst hq1
    intro hc
    exact hany (List.any_eq_true.mpr ⟨p, hp, by simp [hc]⟩)

/-! ## Row-index (`rowsToMap`) lemmas -/

/-- Well-formed store body: no two rows carry the same truthy id. -/
def DistinctIds (rows : List Row) : Prop :=
  rows.Pairwise (fun r s => truthy (r.headD Cell.null) = true →
    truthy (s.headD Cell.null) = true → r.headD Cell.null ≠ s.headD Cell.null)

theorem rowsToMapAux_mem :
    ∀ (rows : List Row) {i : Nat} {m : List (Cell × RowEntry)} {k : Cell}
      {ex : RowEntry}, (k, ex) ∈ rowsToMapAux i rows m →
      (k, ex) ∈ m ∨ ∃ j, j < rows.length ∧ ex.rowIndex = i + j + 2
        ∧ rows.getD j [] = ex.values ∧ ex.values.headD Cell.null = k
        ∧ truthy k = true := by
  intro rows
  induction rows with
  | nil => intro i m k ex h; exact Or.inl h
  | cons r rest ih =>
      intro i m k ex h
      rw [show rowsToMapAux i (r :: rest) m
        = rowsToMapAux (i + 1) rest
            (if truthy (r.headD Cell.null) then
              mapSet m (r.headD Cell.null) ⟨i + 2, r⟩ else m) from rfl] at h
      rcases ih h with hm | ⟨j, hj, hji, hjv, hjk, hjt⟩
      · by_cases ht : truthy (r.headD Cell.null) = true
        · rw [if_pos ht] at hm
          rcases mem_mapSet hm with ⟨hk, hv⟩ | ⟨hm', _⟩
          · refine Or.inr ⟨0, by simp, by rw [hv], by simp [hv], ?_, ?_⟩
            · rw [hv]; exact hk.symm
            · rw [hk]; exact ht
          · exact Or.inl hm'
        · rw [if_neg ht] at hm
          exact Or.inl hm
      · exact Or.inr ⟨j + 1, by simpa using hj, by omega, by simpa using hjv,
          hjk, hjt⟩

/-- Every entry of the row index records a body row: its 0-based offset `j`,
position `j + 2`, the row's values, and the row's truthy id as key. -/
theorem rowsToMap_mem_spec {rows : List Row} {k : Cell} {ex : RowEntry}
    (h : (k, ex) ∈ rowsToMap rows) :
    ∃ j, j < rows.length ∧ ex.rowIndex = j + 2 ∧ rows.getD j [] = ex.values
      ∧ ex.values.headD Cell.null = k ∧ truthy k = true := by
  rcases rowsToMapAux_mem rows h with hm | ⟨j, hj, hji, hjv, hjk, hjt⟩
  · simp at hm
  · exact ⟨j, hj, by omega, hjv, hjk, hjt⟩

theorem keysDistinct_rowsToMapAux :
    ∀ (rows : List Row) {i : Nat} {m : List (Cell × RowEntry)},
      KeysDistinct m → KeysDistinct (rowsToMapAux i rows m) := by
  intro rows
  induction rows with
  | nil => intro i m h; exact h
  | cons r rest ih =>
      intro i m h
      show KeysDistinct (rowsToMapAux (i + 1) rest _)
      by_cases ht : truthy (r.headD Cell.null) = true
      · rw [if_pos ht]; exact ih (keysDistinct_mapSet h)
      · rw [if_neg ht]; exact ih h

theorem keysDistinct_rowsToMap (rows : List Row) :
    KeysDistinct (rowsToMap rows) :=
  keysDistinct_rowsToMapAux rows List.Pairwise.nil

/-- Distinct index entries sit at distinct positions; equivalently the
position determines the key. -/
theorem rowsToMap_rowIndex_inj {rows : List Row} {k₁ k₂ : Cell}
    {ex₁ ex₂ : RowEntry} (h₁ : (k₁, ex₁) ∈ rowsToMap rows)
    (h₂ : (k₂, ex₂) ∈ rowsToMap rows)
    (hr : ex₁.rowIndex = ex₂.rowIndex) : k₁ = k₂ := by
  rcases rowsToMap_mem_spec h₁ with ⟨j₁, _, hi₁, hv₁, hk₁, _⟩
  rcases rowsToMap_mem_spec h₂ with ⟨j₂, _, hi₂, hv₂, hk₂, _⟩
  have hj : j₁ = j₂ := by omega
  subst hj
  rw [← hk₁, ← hk₂, ← hv₁, ← hv₂]

theorem rowsToMap_lookup_spec {rows : List Row} {k : Cell} {ex : RowEntry}
    (h : lookupKey (rowsToMap rows) k = some ex) :
    ∃ j, j < rows.length ∧ ex.rowIndex = j + 2 ∧ rows.getD j [] = ex.values
      ∧ ex.values.headD Cell.null = k ∧ truthy k = true :=
  rowsToMap_mem_spec (lookupKey_mem h)

theorem hasKey_rowsToMapAux_mono :
    ∀ (rows : List Row) {i : Nat} {m : List (Cell × RowEntry)} {k : Cell},
      hasKey m k = true → hasKey (rowsToMapAux i rows m) k = true := by
  intro rows
  induction rows with
  | nil => intro i m k h; exact h
  | cons r rest ih =>
      intro i m k h
      show hasKey (rowsToMapAux (i + 1) rest _) k = true
      by_cases ht : truthy (r.headD Cell.null) = true
      · rw [if_pos ht]
        exact ih (hasKey_mapSet.mpr (Or.inl h))
      · rw [if_neg ht]; exact ih h

/-- Every body row with a truthy id is indexed. -/
theorem rowsToMap_hasKey_of_truthy :
    ∀ (rows : List Row) {i : Nat} {m : List (Cell × RowEntry)} (j : Nat),
      j < rows.length → truthy ((rows.getD j []).headD Cell.null) = true →
      hasKey (rowsToMapAux i rows m) ((rows.getD j []).headD Cell.null)
        = true := by
  intro rows
  induction rows with
  | nil => intro i m j hj; simp at hj
  | cons r rest ih =>
      intro i m j hj ht
      cases j with
      | zero =>
          show hasKey (rowsToMapAux (i + 1) rest _) _ = true
          simp only [List.getD_cons_zero] at ht ⊢
          rw [if_pos ht]
          exact hasKey_rowsToMapAux_mono rest
            (hasKey_mapSet.mpr (Or.inr rfl))
      | succ j' =>
          show hasKey (rowsToMapAux (i + 1) rest _) _ = true
          simp only [List.getD_cons_succ] at ht ⊢
          exact ih j' (by simpa using hj) ht

theorem mem_rowsToMapAux_preserved :
    ∀ (rows : List Row) {i : Nat} {m : List (Cell × RowEntry)} {k : Cell}
      {e : RowEntry}, (k, e) ∈ m →
      (∀ r ∈ rows, truthy (r.headD Cell.null) = true →
        r.headD Cell.null ≠ k) →
      (k, e) ∈ rowsToMapAux i rows m := by
  intro rows
  induction rows with
  | nil => intro i m k e h _; exact h
  | cons r rest ih =>
      intro i m k e h hno
      show (k, e) ∈ rowsToMapAux (i + 1) rest _
      by_cases ht : truthy (r.headD Cell.null) = true
      · rw [if_pos ht]
        refine ih (mapSet_mem_of_ne h ?_) (fun s hs => hno s (by simp [hs]))
        intro hk
        exact hno r (by simp) ht hk.symm
      · rw [if_neg ht]
        exact ih h (fun s hs => hno s (by simp [hs]))

/-- On a body with pairwise-distinct truthy ids, looking up the id of the
`j`-th body row finds exactly that row at position `j + 2`. -/
theorem rowsToMap_lookup_of_distinct :
    ∀ (rows : List Row), DistinctIds rows → ∀ j, (hj : j < rows.length) →
      truthy ((rows.getD j []).headD Cell.null) = true →
      lookupKey (rowsToMap rows) ((rows.getD j []).headD Cell.null)
        = some ⟨j + 2, rows.getD j []⟩ := by
  have haux : ∀ (rows : List Row), DistinctIds rows →
      ∀ (i : Nat) (m : List (Cell × RowEntry)) (j : Nat), j < rows.length →
      truthy ((rows.getD j []).headD Cell.null) = true →
      ((rows.getD j []).headD Cell.null,
        (⟨i + j + 2, rows.getD j []⟩ : RowEntry)) ∈ rowsToMapAux i rows m := by
    intro rows
    induction rows with
    | nil => intro _ i m j hj; simp at hj
    | cons r rest ih =>
        intro hd i m j hj ht
        cases j with
        | zero =>
            show _ ∈ rowsToMapAux (i + 1) rest _
            simp only [List.getD_cons_zero] at ht ⊢
            rw [if_pos ht]
            refine mem_rowsToMapAux_preserved rest
              (mapSet_mem_self m _ _) ?_
            intro s hs hts hks
            exact (List.pairwise_cons.mp hd).1 s hs ht hts hks.symm
        | succ j' =>
            show _ ∈ rowsToMapAux (i + 1) rest
              (if truthy (r.headD Cell.null) then
                mapSet m (r.headD Cell.null) ⟨i + 2, r⟩ else m)
            simp only [List.getD_cons_succ] at ht ⊢
            have := ih (List.pairwise_cons.mp hd).2 (i + 1)
              (if truthy (r.headD Cell.null) then
                mapSet m (r.headD Cell.null) ⟨i + 2, r⟩ else m) j'
              (by simpa using hj) ht
            rw [show i + 1 + j' + 2 = i + (j' + 1) + 2 from by omega] at this
            exact this
  intro rows hd j hj ht
  exact lookupKey_of_mem (keysDistinct_rowsToMap rows)
    (by simpa using haux rows hd 0 [] j hj ht)

/-! ## Desired-map (`buildDesiredMap`) lemmas -/

theorem buildDesiredMap_foldl_mem :
    ∀ (rows : List Row) (m : List (Cell × Row)) {k : Cell} {v : Row},
      (k, v) ∈ rows.foldl (fun m r => mapSet m (r.headD Cell.null) r) m →
      (k, v) ∈ m ∨ (v ∈ rows ∧ v.headD Cell.null = k) := by
  intro rows
  induction rows with
  | nil => intro m k v h; exact Or.inl h
  | cons r rest ih =>
      intro m k v h
      rcases ih _ h with hm | ⟨hv, hk⟩
      · rcases mem_mapSet hm with ⟨hk, hv⟩ | ⟨hm', _⟩
        · subst hv
          exact Or.inr ⟨by simp, hk.symm⟩
        · exact Or.inl hm'
      · exact Or.inr ⟨by simp [hv], hk⟩

/-- Every desired-map entry is one of the projected rows, keyed by its own
first cell. -/
theorem buildDesiredMap_mem_spec {rows : List Row} {k : Cell} {v : Row}
    (h : (k, v) ∈ buildDesiredMap rows) :
    v ∈ rows ∧ v.headD Cell.null = k := by
  rcases buildDesiredMap_foldl_mem rows [] h with hm | hv
  · simp at hm
  · exact hv

theorem keysDistinct_buildDesiredMap (rows : List Row) :
    KeysDistinct (buildDesiredMap rows) := by
  have : ∀ (rows : List Row) (m : List (Cell × Row)), KeysDistinct m →
      KeysDistinct (rows.foldl (fun m r => mapSet m (r.headD Cell.null) r) m) := by
    intro rows
    induction rows with
    | nil => intro m h; exact h
    | cons r rest ih => intro m h; exact ih _ (keysDistinct_mapSet h)
  exact this rows [] List.Pairwise.nil

theorem hasKey_buildDesiredMap_iff {rows : List Row} {k : Cell} :
    hasKey (buildDesiredMap rows) k = true
      ↔ ∃ r ∈ rows, r.headD Cell.null = k := by
  constructor
  · intro h
    rcases hasKey_iff_mem.mp h with ⟨v, hv⟩
    rcases buildDesiredMap_mem_spec hv with ⟨hm, hk⟩
    exact ⟨v, hm, hk⟩
  · rintro ⟨r, hr, hk⟩
    have hmono : ∀ (rows : List Row) (m : List (Cell × Row)),
        hasKey m k = true →
        hasKey (rows.foldl (fun m r => mapSet m (r.headD Cell.null) r) m) k
          = true := by
      intro rows
      induction rows with
      | nil => intro m h; exact h
      | cons s rest ih =>
          intro m h
          exact ih _ (hasKey_mapSet.mpr (Or.inl h))
    have hins : ∀ (rows : List Row) (m : List (Cell × Row)), r ∈ rows →
        hasKey (rows.foldl (fun m r => mapSet m (r.headD Cell.null) r) m) k
          = true := by
      intro rows
      induction rows with
      | nil => intro m h; simp at h
      | cons s rest ih =>
          intro m hmem
          rcases List.mem_cons.mp hmem with hh | htl
          · subst hh
            exact hmono rest _ (hasKey_mapSet.mpr (Or.inr hk.symm))
          · exact ih _ htl
    exact hins rows [] hr

/-! ## Grid operation lemmas -/

theorem padTo_of_le {g : Grid} {n : Nat} (h : n ≤ g.length) : padTo g n = g := by
  simp [padTo, Nat.sub_eq_zero_of_le h]

theorem setRow_length {g : Grid} {p : Nat} {v : Row} (h2 : p ≤ g.length) :
    (setRow g p v).length = g.length := by
  rw [setRow, padTo_of_le h2, List.length_set]

theorem setRow_getD {g : Grid} {p : Nat} {v : Row} (h1 : 1 ≤ p)
    (h2 : p ≤ g.length) (j : Nat) :
    (setRow g p v).getD j []
      = if j = p - 1 then writeRowAt (g.getD j []) v else g.getD j [] := by
  rw [setRow, padTo_of_le h2, List.getD_eq_getElem?_getD, List.getElem?_set]
  by_cases hj : j = p - 1
  · subst hj
    rw [if_pos rfl, if_pos rfl, if_pos (by omega)]
    simp [List.getD_eq_getElem?_getD]
  · rw [if_neg (fun hc => hj hc.symm), if_neg hj, List.getD_eq_getElem?_getD]

theorem writeRowAt_drop {t v : Row} {n : Nat} (h : v.length ≤ n) :
    (writeRowAt t v).drop n = t.drop n := by
  rw [writeRowAt]
  rw [show n = v.length + (n - v.length) from by omega, List.drop_append,
    List.drop_drop]

theorem writeRowAt_headD {t : Row} {v : Row} (h : v ≠ []) :
    (writeRowAt t v).headD Cell.null = v.headD Cell.null := by
  cases v with
  | nil => exact absurd rfl h
  | cons x xs => rfl

theorem setValuesAt_append : ∀ (vs : List Row) (g : Grid),
    setValuesAt g (g.length + 1) vs = g ++ vs := by
  intro vs
  induction vs with
  | nil => intro g; simp [setValuesAt]
  | cons v rest ih =>
      intro g
      show setValuesAt (setRow g (g.length + 1) v) (g.length + 1 + 1) rest
        = g ++ v :: rest
      have hpad : padTo g (g.length + 1) = g ++ [[]] := by
        simp [padTo, List.replicate]
      have hsr : setRow g (g.length + 1) v = g ++ [v] := by
        rw [setRow, hpad]
        have hget : (g ++ [[]]).getD (g.length + 1 - 1) [] = [] := by
          simp [List.getD_eq_getElem?_getD, List.getElem?_append]
        rw [hget]
        have hw : writeRowAt [] v = v := by simp [writeRowAt]
        rw [hw, List.set_append, if_neg (by omega)]
        simp
      rw [hsr]
      have := ih (g ++ [v])
      rw [List.length_append] at this
      simpa using this

/-! ## Descending sort and batched deletion -/

theorem insertDesc_perm (x : Nat) : ∀ l : List Nat, (insertDesc x l).Perm (x :: l) := by
  intro l
  induction l with
  | nil => exact List.Perm.refl _
  | cons y ys ih =>
      show (if y ≤ x then x :: y :: ys else y :: insertDesc x ys).Perm _
      by_cases h : y ≤ x
      · rw [if_pos h]
      · rw [if_neg h]
        exact ((ih.cons y).trans (List.Perm.swap x y ys))

theorem sortDesc_perm : ∀ l : List Nat, (sortDesc l).Perm l := by
  intro l
  induction l with
  | nil => exact List.Perm.refl _
  | cons x xs ih =>
      show (insertDesc x (sortDesc xs)).Perm (x :: xs)
      exact (insertDesc_perm x (sortDesc xs)).trans (ih.cons x)

theorem insertDesc_sorted (x : Nat) :
    ∀ {l : List Nat}, l.Pairwise (· ≥ ·) → (insertDesc x l).Pairwise (· ≥ ·) := by
  intro l
  induction l with
  | nil => intro _; simp [insertDesc]
  | cons y ys ih =>
      intro h
      rcases List.pairwise_cons.mp h with ⟨hy, hys⟩
      show (if y ≤ x then x :: y :: ys else y :: insertDesc x ys).Pairwise _
      by_cases hle : y ≤ x
      · rw [if_pos hle]
        refine List.pairwise_cons.mpr ⟨?_, h⟩
        intro z hz
        rcases List.mem_cons.mp hz with hz | hz
        · omega
        · have := hy z hz; omega
      · rw [if_neg hle]
        refine List.pairwise_cons.mpr ⟨?_, ih hys⟩
        intro z hz
        have hz' := (insertDesc_perm x ys).mem_iff.mp hz
        rcases List.mem_cons.mp hz' with hz' | hz'
        · omega
        · exact hy z hz'

theorem sortDesc_sorted : ∀ l : List Nat, (sortDesc l).Pairwise (· ≥ ·) := by
  intro l
  induction l with
  | nil => simp [sortDesc]
  | cons x xs ih => exact insertDesc_sorted x ih

theorem removeIdxsAux_of_ge {s : List Nat} :
    ∀ (g : Grid) (i : Nat), (∀ x ∈ s, x < i) → removeIdxsAux s i g = g := by
  intro g
  induction g with
  | nil => intro i _; rfl
  | cons r g' ih =>
      intro i h
      show (if i ∈ s then _ else _) = _
      rw [if_neg (fun hc => absurd (h i hc) (by omega))]
      rw [ih (i + 1) (fun x hx => Nat.lt_succ_of_lt (h x hx))]

theorem removeIdxsAux_erase {s : List Nat} {m : Nat} (hs : ∀ x ∈ s, x < m) :
    ∀ (g : Grid) (i : Nat), i ≤ m →
      removeIdxsAux (m :: s) i g = removeIdxsAux s i (g.eraseIdx (m - i)) := by
  intro g
  induction g with
  | nil => intro i _; simp [List.eraseIdx]; rfl
  | cons r g' ih =>
      intro i him
      by_cases heq : i = m
      · subst heq
        show (if i ∈ i :: s then _ else _) = _
        rw [if_pos (by simp)]
        rw [removeIdxsAux_of_ge g' (i + 1)
          (fun x hx => by rcases List.mem_cons.mp hx with h | h
                          · omega
                          · have := hs x h; omega)]
        rw [Nat.sub_self, List.eraseIdx_cons_zero]
        rw [removeIdxsAux_of_ge g' i (fun x hx => hs x hx)]
      · have hlt : i < m := by omega
        have hmi : m - i = (m - (i + 1)) + 1 := by omega
        rw [hmi, List.eraseIdx_cons_succ]
        by_cases hin : i ∈ s
        · show (if i ∈ m :: s then _ else _) = _
          rw [if_pos (by simp [hin])]
          show _ = (if i ∈ s then _ else _)
          rw [if_pos hin]
          exact ih (i + 1) (by omega)
        · show (if i ∈ m :: s then _ else _) = _
          rw [if_neg (by simp [hin]; omega)]
          show _ = (if i ∈ s then _ else _)
          rw [if_neg hin]
          rw [ih (i + 1) (by omega)]

/-- Applying `deleteRow` at strictly descending, in-range positions removes
exactly the rows at those (0-based) indices. -/
theorem foldl_deleteRowAt_removeIdxs :
    ∀ (l : List Nat) (g : Grid), l.Pairwise (fun a b => b < a) →
      (∀ p ∈ l, 1 ≤ p ∧ p ≤ g.length) →
      l.foldl deleteRowAt g = removeIdxs g (l.map (· - 1)) := by
  intro l
  induction l with
  | nil =>
      intro g _ _
      rw [List.foldl_nil, List.map_nil, removeIdxs,
        removeIdxsAux_of_ge g 0 (by simp)]
  | cons p l' ih =>
      intro g hp hrange
      rcases List.pairwise_cons.mp hp with ⟨hlt, hp'⟩
      have hpr := hrange p (by simp)
      have hdel : deleteRowAt g p = g.eraseIdx (p - 1) := by
        rw [deleteRowAt, if_pos ⟨hpr.1, hpr.2⟩]
      rw [List.foldl_cons, hdel]
      have hrange' : ∀ q ∈ l', 1 ≤ q ∧ q ≤ (g.eraseIdx (p - 1)).length := by
        intro q hq
        have h1 := (hrange q (by simp [hq])).1
        have h2 := hlt q hq
        rw [List.length_eraseIdx, if_pos (by omega)]
        constructor
        · exact h1
        · omega
      rw [ih _ hp' hrange']
      rw [List.map_cons, removeIdxs, removeIdxs]
      rw [removeIdxsAux_erase (m := p - 1)
        (fun x hx => by rcases List.mem_map.mp hx with ⟨q, hq, hqe⟩
                        have := hlt q hq
                        have := (hrange q (by simp [hq])).1
                        omega) g 0 (by omega)]
      rw [Nat.sub_zero]

/-! ## Upsert-phase lemmas -/

/-- The update (if any) that the upsert loop writes at 1-based position `p`:
the first desired entry whose indexed row sits at `p` and compares unequal. -/
def updTarget (pd : String → Option Int) (emap : List (Cell × RowEntry))
    (entries : List (Cell × Row)) (p : Nat) : Option Row :=
  entries.findSome? (fun e =>
    match lookupKey emap e.1 with
    | some ex =>
        if ex.rowIndex = p ∧ rowsEqual pd e.2 ex.values = false then some e.2
        else none
    | none => none)

theorem updTarget_some_spec {pd : String → Option Int}
    {emap : List (Cell × RowEntry)} {p : Nat} {row : Row} :
    ∀ {entries : List (Cell × Row)},
      updTarget pd emap entries p = some row →
      ∃ e ∈ entries, ∃ ex, lookupKey emap e.1 = some ex ∧ ex.rowIndex = p
        ∧ rowsEqual pd e.2 ex.values = false ∧ row = e.2 := by
  intro entries
  induction entries with
  | nil => intro h; exact absurd h (by simp [updTarget])
  | cons e rest ih =>
      intro h
      rw [updTarget, List.findSome?_cons] at h
      rcases hl : lookupKey emap e.1 with _ | ex
      · rw [hl] at h
        rcases ih h with ⟨e', he', hrest⟩
        exact ⟨e', by simp [he'], hrest⟩
      · rw [hl] at h
        simp only [] at h
        by_cases hc : ex.rowIndex = p ∧ rowsEqual pd e.2 ex.values = false
        · rw [if_pos hc] at h
          exact ⟨e, by simp, ex, hl, hc.1, hc.2, (Option.some_inj.mp h).symm⟩
        · rw [if_neg hc] at h
          rcases ih h with ⟨e', he', hrest⟩
          exact ⟨e', by simp [he'], hrest⟩

theorem upsertPhase_trace_spec {pd : String → Option Int}
    {emap : List (Cell × RowEntry)} :
    ∀ (entries : List (Cell × Row)) (g : Grid) {p : Nat} {r : Row},
      (p, r) ∈ (upsertPhase pd emap entries g).2.1 →
      ∃ e ∈ entries, ∃ ex, lookupKey emap e.1 = some ex ∧ p = ex.rowIndex
        ∧ r = e.2 := by
  intro entries
  induction entries with
  | nil => intro g p r h; exact absurd h (by simp [upsertPhase])
  | cons e rest ih =>
      intro g p r h
      rw [upsertPhase] at h
      rcases hl : lookupKey emap e.1 with _ | ex
      · rw [hl] at h
        simp only [] at h
        rcases ih _ h with ⟨e', he', hrest⟩
        exact ⟨e', by simp [he'], hrest⟩
      · rw [hl] at h
        simp only [] at h
        by_cases hre : rowsEqual pd e.2 ex.values = true
        · rw [if_pos hre] at h
          rcases ih _ h with ⟨e', he', hrest⟩
          exact ⟨e', by simp [he'], hrest⟩
        · rw [if_neg hre] at h
          rcases List.mem_cons.mp h with hh | ht
          · have h1 : p = ex.rowIndex := congrArg Prod.fst hh
            have h2 : r = e.2 := congrArg Prod.snd hh
            exact ⟨e, by simp, ex, hl, h1, h2⟩
          · rcases ih _ ht with ⟨e', he', hrest⟩
            exact ⟨e', by simp [he'], hrest⟩

theorem upsertPhase_inserts_spec {pd : String → Option Int}
    {emap : List (Cell × RowEntry)} :
    ∀ (entries : List (Cell × Row)) (g : Grid),
      (upsertPhase pd emap entries g).2.2
        = entries.filterMap (fun e =>
            match lookupKey emap e.1 with
            | some _ => none
            | none => some e.2) := by
  intro entries
  induction entries with
  | nil => intro g; rfl
  | cons e rest ih =>
      intro g
      rw [upsertPhase, List.filterMap_cons]
      rcases hl : lookupKey emap e.1 with _ | ex
      · simp only [hl]
        rw [ih]
      · simp only [hl]
        by_cases hre : rowsEqual pd e.2 ex.values = true
        · rw [if_pos hre, ih]
        · rw [if_neg hre]
          show (upsertPhase pd emap rest (setValuesAt g ex.rowIndex [e.2])).2.2 = _
          rw [ih]

/-- Pointwise characterization of the upsert phase: the grid keeps its
length, and each row either receives its (unique) pending update or is left
alone. -/
theorem upsertPhase_grid_char (pd : String → Option Int)
    (emap : List (Cell × RowEntry)) :
    ∀ (entries : List (Cell × Row)) (g : Grid),
      KeysDistinct entries →
      (∀ k₁ k₂ ex₁ ex₂, lookupKey emap k₁ = some ex₁ →
        lookupKey emap k₂ = some ex₂ → ex₁.rowIndex = ex₂.rowIndex → k₁ = k₂) →
      (∀ k ex, lookupKey emap k = some ex →
        1 ≤ ex.rowIndex ∧ ex.rowIndex ≤ g.length) →
      (upsertPhase pd emap entries g).1.length = g.length
      ∧ ∀ j, (upsertPhase pd emap entries g).1.getD j []
          = match updTarget pd emap entries (j + 1) with
            | some row => writeRowAt (g.getD j []) row
            | none => g.getD j [] := by
  intro entries
  induction entries with
  | nil =>
      intro g _ _ _
      exact ⟨rfl, fun j => by simp [upsertPhase, updTarget]⟩
  | cons e rest ih =>
      intro g hkd hinj hrange
      have hkd' : KeysDistinct rest := (List.pairwise_cons.mp hkd).2
      have hknotin : ∀ f ∈ rest, e.1 ≠ f.1 := (List.pairwise_cons.mp hkd).1
      rcases hl : lookupKey emap e.1 with _ | ex
      · have heq : upsertPhase pd emap (e :: rest) g
            = ((upsertPhase pd emap rest g).1,
               (upsertPhase pd emap rest g).2.1,
               e.2 :: (upsertPhase pd emap rest g).2.2) := by
          rw [upsertPhase, hl]
        rcases ih g hkd' hinj hrange with ⟨ihl, ihp⟩
        refine ⟨by rw [heq]; exact ihl, ?_⟩
        intro j
        rw [heq]
        have hut : updTarget pd emap (e :: rest) (j + 1)
            = updTarget pd emap rest (j + 1) := by
          simp only [updTarget, List.findSome?_cons, hl]
        rw [hut]
        exact ihp j
      · by_cases hre : rowsEqual pd e.2 ex.values = true
        · have heq : upsertPhase pd emap (e :: rest) g
              = upsertPhase pd emap rest g := by
            simp only [upsertPhase, hl, if_pos hre]
          rcases ih g hkd' hinj hrange with ⟨ihl, ihp⟩
          refine ⟨by rw [heq]; exact ihl, ?_⟩
          intro j
          rw [heq]
          have hut : updTarget pd emap (e :: rest) (j + 1)
              = updTarget pd emap rest (j + 1) := by
            simp only [updTarget, List.findSome?_cons, hl]
            rw [if_neg (fun hc => by rw [hre] at hc; exact absurd hc.2 (by simp))]
          rw [hut]
          exact ihp j
        · have href : rowsEqual pd e.2 ex.values = false := by
            revert hre; cases rowsEqual pd e.2 ex.values <;> simp
          have hexr := hrange e.1 ex hl
          have hg' : (setValuesAt g ex.rowIndex [e.2]) = setRow g ex.rowIndex e.2 := rfl
          have hglen : (setRow g ex.rowIndex e.2).length = g.length :=
            setRow_length hexr.2
          have heq : (upsertPhase pd emap (e :: rest) g).1
              = (upsertPhase pd emap rest (setRow g ex.rowIndex e.2)).1 := by
            simp only [upsertPhase, hl]
            rw [if_neg (by rw [href]; simp)]
            rfl
          have hrange' : ∀ k ex', lookupKey emap k = some ex' →
              1 ≤ ex'.rowIndex ∧ ex'.rowIndex ≤ (setRow g ex.rowIndex e.2).length := by
            intro k ex' hk
            rw [hglen]
            exact hrange k ex' hk
          rcases ih (setRow g ex.rowIndex e.2) hkd' hinj hrange' with ⟨ihl, ihp⟩
          refine ⟨by rw [heq, ihl, hglen], ?_⟩
          intro j
          rw [heq, ihp j]
          by_cases hj : ex.rowIndex = j + 1
          · have hut : updTarget pd emap (e :: rest) (j + 1) = some e.2 := by
              simp only [updTarget, List.findSome?_cons, hl]
              rw [if_pos ⟨hj, href⟩]
            rw [hut]
            have hrnone : updTarget pd emap rest (j + 1) = none := by
              rcases hu : updTarget pd emap rest (j + 1) with _ | row
              · rfl
              · rcases updTarget_some_spec hu with ⟨e', he', ex', hl', hr', _, _⟩
                have : e.1 = e'.1 :=
                  hinj e.1 e'.1 ex ex' hl hl' (by omega)
                exact absurd this (hknotin e' he')
            rw [hrnone]
            rw [setRow_getD hexr.1 hexr.2 j, if_pos (by omega)]
          · have hut : updTarget pd emap (e :: rest) (j + 1)
                = updTarget pd emap rest (j + 1) := by
              simp only [updTarget, List.findSome?_cons, hl]
              rw [if_neg (fun hc => hj hc.1)]
            rw [hut]
            have hsame : (setRow g ex.rowIndex e.2).getD j [] = g.getD j [] := by
              rw [setRow_getD hexr.1 hexr.2 j, if_neg (by omega)]
            rw [hsame]

/-! ## Header, projection and deletion-plan support lemmas -/

theorem headD_eq_getD (l : Grid) : l.headD [] = l.getD 0 [] := by
  cases l <;> rfl

theorem headD_append_left {l l' : Grid} (h : l ≠ []) :
    (l ++ l').headD [] = l.headD [] := by
  cases l with
  | nil => exact absurd rfl h
  | cons r t => rfl

theorem ensureHeader_nil : ensureHeader [] = [expectedHeader] := rfl

theorem ensureHeader_head_valid (g : Grid) :
    validHeader ((ensureHeader g).headD []) = true := by
  rw [ensureHeader]
  by_cases h0 : g.length = 0
  · rw [if_pos h0]
    have hg : g = [] := List.length_eq_zero.mp h0
    subst hg
    decide
  · rw [if_neg h0]
    by_cases hv : validHeader (g.headD []) = true
    · rw [if_pos hv]
      exact hv
    · rw [if_neg hv, ensureHeader_insert]
      show validHeader expectedHeader = true
      decide

theorem ensureHeader_length_pos (g : Grid) : 1 ≤ (ensureHeader g).length := by
  rw [ensureHeader]
  by_cases h0 : g.length = 0
  · rw [if_pos h0]
    have hg : g = [] := List.length_eq_zero.mp h0
    subst hg
    decide
  · rw [if_neg h0]
    by_cases hv : validHeader (g.headD []) = true
    · rw [if_pos hv]; omega
    · rw [if_neg hv, ensureHeader_insert]
      simp

theorem ensureHeader_ne_nil (g : Grid) : ensureHeader g ≠ [] := by
  have := ensureHeader_length_pos g
  intro h
  rw [h] at this
  simp at this

theorem length_tail_ensureHeader (g : Grid) :
    (ensureHeader g).length = (ensureHeader g).tail.length + 1 := by
  have := ensureHeader_length_pos g
  rw [List.length_tail]
  omega

theorem eventToRow_length (iso : Int → String) (e : CalEvent) :
    (eventToRow iso e).length = 7 := rfl

/-- Every desired-map entry is the projection of one of the events: a 7-cell
all-string row keyed by the event's id. -/
theorem dmap_entry_spec {iso : Int → String} {events : List CalEvent}
    {k : Cell} {row : Row}
    (h : (k, row) ∈ buildDesiredMap (events.map (eventToRow iso))) :
    row.length = 7 ∧ row.headD Cell.null = k
      ∧ ∃ e ∈ events, row = eventToRow iso e ∧ k = Cell.str e.id := by
  rcases buildDesiredMap_mem_spec h with ⟨hm, hk⟩
  rcases List.mem_map.mp hm with ⟨e, he, hev⟩
  subst hev
  exact ⟨rfl, hk, e, he, rfl, hk ▸ rfl⟩

theorem emap_lookup_inj (body : List Row) :
    ∀ k₁ k₂ ex₁ ex₂, lookupKey (rowsToMap body) k₁ = some ex₁ →
      lookupKey (rowsToMap body) k₂ = some ex₂ →
      ex₁.rowIndex = ex₂.rowIndex → k₁ = k₂ :=
  fun _ _ _ _ h₁ h₂ hr =>
    rowsToMap_rowIndex_inj (lookupKey_mem h₁) (lookupKey_mem h₂) hr

theorem deletePlan_mem_spec {pd : String → Option Int} {ws we : Int}
    {dmap : List (Cell × Row)} :
    ∀ {emap : List (Cell × RowEntry)} {p : Nat},
      p ∈ deletePlan pd ws we dmap emap →
      ∃ k ex, (k, ex) ∈ emap ∧ hasKey dmap k = false
        ∧ delCond pd ws we ex.values = true ∧ p = ex.rowIndex := by
  intro emap
  induction emap with
  | nil => intro p h; exact absurd h (by simp [deletePlan])
  | cons e rest ih =>
      intro p h
      rw [deletePlan] at h
      by_cases hhk : hasKey dmap e.1 = true
      · rw [if_pos hhk] at h
        rcases ih h with ⟨k, ex, hm, hrest⟩
        exact ⟨k, ex, by simp [hm], hrest⟩
      · rw [if_neg hhk] at h
        have hhkf : hasKey dmap e.1 = false := by
          revert hhk; cases hasKey dmap e.1 <;> simp
        by_cases hdc : delCond pd ws we e.2.values = true
        · rw [if_pos hdc] at h
          rcases List.mem_cons.mp h with hh | ht
          · exact ⟨e.1, e.2, by simp, hhkf, hdc, hh⟩
          · rcases ih ht with ⟨k, ex, hm, hrest⟩
            exact ⟨k, ex, by simp [hm], hrest⟩
        · rw [if_neg hdc] at h
          rcases ih h with ⟨k, ex, hm, hrest⟩
          exact ⟨k, ex, by simp [hm], hrest⟩

theorem deletePlan_mem_of {pd : String → Option Int} {ws we : Int}
    {dmap : List (Cell × Row)} :
    ∀ {emap : List (Cell × RowEntry)} {k : Cell} {ex : RowEntry},
      (k, ex) ∈ emap → hasKey dmap k = false →
      delCond pd ws we ex.values = true →
      ex.rowIndex ∈ deletePlan pd ws we dmap emap := by
  intro emap
  induction emap with
  | nil => intro k ex h; simp at h
  | cons e rest ih =>
      intro k ex hm hhk hdc
      rw [deletePlan]
      rcases List.mem_cons.mp hm with hh | ht
      · subst hh
        rw [if_neg (by simp [hhk]), if_pos hdc]
        simp
      · by_cases hek : hasKey dmap e.1 = true
        · rw [if_pos hek]
          exact ih ht hhk hdc
        · rw [if_neg hek]
          by_cases hedc : delCond pd ws we e.2.values = true
          · rw [if_pos hedc]
            exact List.mem_cons.mpr (Or.inr (ih ht hhk hdc))
          · rw [if_neg hedc]
            exact ih ht hhk hdc

theorem deletePlan_sublist (pd : String → Option Int) (ws we : Int)
    (dmap : List (Cell × Row)) :
    ∀ emap : List (Cell × RowEntry),
      (deletePlan pd ws we dmap emap).Sublist
        (emap.map (fun e => e.2.rowIndex)) := by
  intro emap
  induction emap with
  | nil => simp [deletePlan]
  | cons e rest ih =>
      rw [deletePlan, List.map_cons]
      by_cases hhk : hasKey dmap e.1 = true
      · rw [if_pos hhk]
        exact ih.cons _
      · rw [if_neg hhk]
        by_cases hdc : delCond pd ws we e.2.values = true
        · rw [if_pos hdc]
          exact ih.cons₂ _
        · rw [if_neg hdc]
          exact ih.cons _

/-- Index positions of distinct index entries are pairwise distinct. -/
theorem rowsToMap_positions_pairwise (body : List Row) :
    ((rowsToMap body).map (fun e => e.2.rowIndex)).Pairwise (· ≠ ·) := by
  rw [List.pairwise_map]
  refine List.Pairwise.imp_of_mem ?_ (keysDistinct_rowsToMap body)
  intro a b ha hb hne hidx
  have ha' : (a.1, a.2) ∈ rowsToMap body := by simpa using ha
  have hb' : (b.1, b.2) ∈ rowsToMap body := by simpa using hb
  exact hne (rowsToMap_rowIndex_inj ha' hb' hidx)

theorem sortDesc_deletePlan_strict (pd : String → Option Int) (ws we : Int)
    (dmap : List (Cell × Row)) (body : List Row) :
    (sortDesc (deletePlan pd ws we dmap (rowsToMap body))).Pairwise
      (fun a b => b < a) := by
  have hne : (deletePlan pd ws we dmap (rowsToMap body)).Pairwise (· ≠ ·) :=
    List.Pairwise.sublist (deletePlan_sublist pd ws we dmap (rowsToMap body))
      (rowsToMap_positions_pairwise body)
  have hne' : (sortDesc (deletePlan pd ws we dmap (rowsToMap body))).Pairwise
      (· ≠ ·) :=
    ((sortDesc_perm _).pairwise_iff (fun h => Ne.symm h)).mpr hne
  have hge := sortDesc_sorted (deletePlan pd ws we dmap (rowsToMap body))
  exact (hge.and hne').imp (fun h => by obtain ⟨h1, h2⟩ := h; omega)

theorem emap_lookup_range (g1 : Grid) (hlen : 1 ≤ g1.length) :
    ∀ k ex, lookupKey (rowsToMap g1.tail) k = some ex →
      1 ≤ ex.rowIndex ∧ ex.rowIndex ≤ g1.length := by
  intro k ex h
  rcases rowsToMap_lookup_spec h with ⟨j, hj, hji, _⟩
  rw [List.length_tail] at hj
  omega

theorem removeIdxs_head {g : Grid} {s : List Nat} (hg : g ≠ [])
    (hs : 0 ∉ s) : (removeIdxs g s).headD [] = g.headD [] := by
  cases g with
  | nil => exact absurd rfl hg
  | cons r rest =>
      have hstep : removeIdxs (r :: rest) s
          = if 0 ∈ s then removeIdxsAux s 1 rest
            else r :: removeIdxsAux s 1 rest := rfl
      rw [hstep, if_neg hs]
      rfl

/-! ## C3: updates cover exactly the first 7 cells, in place -/

/-- C3: every `setValues` issued by the upsert loop writes the 7-cell desired
row at the targeted row's existing position; the update phase keeps the number
of rows and leaves every row's cells beyond position 7 (the N foreign trailing
columns, any N ≥ 0) exactly as they were. -/
theorem update_preserves_foreign_columns (pd : String → Option Int)
    (iso : Int → String) (events : List CalEvent) (g0 : Grid) :
    (∀ pr ∈ (upsertPhase pd (rowsToMap (ensureHeader g0).tail)
        (buildDesiredMap (events.map (eventToRow iso)))
        (ensureHeader g0)).2.1, pr.2.length = 7)
    ∧ (upsertPhase pd (rowsToMap (ensureHeader g0).tail)
        (buildDesiredMap (events.map (eventToRow iso)))
        (ensureHeader g0)).1.length = (ensureHeader g0).length
    ∧ ∀ j, ((upsertPhase pd (rowsToMap (ensureHeader g0).tail)
        (buildDesiredMap (events.map (eventToRow iso)))
        (ensureHeader g0)).1.getD j []).drop 7
      = ((ensureHeader g0).getD j []).drop 7 := by
  have hchar := upsertPhase_grid_char pd (rowsToMap (ensureHeader g0).tail)
    (buildDesiredMap (events.map (eventToRow iso))) (ensureHeader g0)
    (keysDistinct_buildDesiredMap _) (emap_lookup_inj _)
    (emap_lookup_range _ (ensureHeader_length_pos g0))
  refine ⟨?_, hchar.1, ?_⟩
  · intro pr hpr
    rcases upsertPhase_trace_spec _ _ hpr with ⟨e, he, ex, _, _, hr⟩
    have he2 : (e.1, e.2) ∈ buildDesiredMap (events.map (eventToRow iso)) := by
      simpa using he
    rw [hr]
    exact (dmap_entry_spec he2).1
  · intro j
    rw [hchar.2 j]
    rcases hu : updTarget pd (rowsToMap (ensureHeader g0).tail)
      (buildDesiredMap (events.map (eventToRow iso))) (j + 1) with _ | row
    · rfl
    · rcases updTarget_some_spec hu with ⟨e, he, ex, _, _, _, hrow⟩
      have he2 : (e.1, e.2) ∈ buildDesiredMap (events.map (eventToRow iso)) := by
        simpa using he
      show (writeRowAt ((ensureHeader g0).getD j []) row).drop 7 = _
      rw [hrow]
      exact writeRowAt_drop (by rw [(dmap_entry_spec he2).1])

/-! ## C10: only body rows (position ≥ 2) are ever updated or deleted -/

/-- C10: the row index maps offset `j` to position `j + 2`; every update the
upsert loop issues and every position the deletion pass deletes is ≥ 2; and
the reconcile pass leaves row 1 (the header) in place. -/
theorem reconcile_spares_header (pd : String → Option Int)
    (iso : Int → String) (events : List CalEvent) (ws we : Int) (g0 : Grid) :
    (∀ k ex, (k, ex) ∈ rowsToMap (ensureHeader g0).tail →
      ∃ j, j < (ensureHeader g0).tail.length ∧ ex.rowIndex = j + 2)
    ∧ (∀ pr ∈ (upsertPhase pd (rowsToMap (ensureHeader g0).tail)
        (buildDesiredMap (events.map (eventToRow iso)))
        (ensureHeader g0)).2.1, 2 ≤ pr.1)
    ∧ (∀ p ∈ deletePlan pd ws we
        (buildDesiredMap (events.map (eventToRow iso)))
        (rowsToMap (ensureHeader g0).tail), 2 ≤ p)
    ∧ (syncCalendarToSheet pd iso events ws we g0).headD []
        = (ensureHeader g0).headD []
    ∧ validHeader ((syncCalendarToSheet pd iso events ws we g0).headD [])
        = true := by
  have hg1pos := ensureHeader_length_pos g0
  set g1 := ensureHeader g0 with hg1def
  set dmap := buildDesiredMap (events.map (eventToRow iso)) with hdmapdef
  set emap := rowsToMap g1.tail with hemapdef
  have hchar := upsertPhase_grid_char pd emap dmap g1
    (keysDistinct_buildDesiredMap _) (emap_lookup_inj _)
    (emap_lookup_range _ hg1pos)
  set U := upsertPhase pd emap dmap g1 with hUdef
  set plan := deletePlan pd ws we dmap emap with hplandef
  have hU0 : U.1.getD 0 [] = g1.getD 0 [] := by
    rw [hchar.2 0]
    rcases hu : updTarget pd emap dmap 1 with _ | row
    · rfl
    · rcases updTarget_some_spec hu with ⟨e, _, ex, hl, hp, _, _⟩
      rcases rowsToMap_lookup_spec hl with ⟨j, _, hji, _⟩
      omega
  have hplan2 : ∀ p ∈ plan, 2 ≤ p ∧ p ≤ g1.length := by
    intro p hp
    rcases deletePlan_mem_spec hp with ⟨k, ex, hm, _, _, hpe⟩
    rcases rowsToMap_mem_spec hm with ⟨j, hj, hji, _⟩
    rw [List.length_tail] at hj
    omega
  refine ⟨?_, ?_, ?_, ?_⟩
  · intro k ex h
    rcases rowsToMap_mem_spec h with ⟨j, hj, hji, _⟩
    exact ⟨j, hj, hji⟩
  · intro pr hpr
    rcases upsertPhase_trace_spec _ _ hpr with ⟨e, _, ex, hl, hp, _⟩
    rcases rowsToMap_lookup_spec hl with ⟨j, _, hji, _⟩
    omega
  · intro p hp
    exact (hplan2 p hp).1
  · have hsync : syncCalendarToSheet pd iso events ws we g0
        = (sortDesc plan).foldl deleteRowAt
          (if U.2.2.isEmpty then U.1
           else setValuesAt U.1 (U.1.length + 1) U.2.2) := rfl
    set gI := if U.2.2.isEmpty then U.1
              else setValuesAt U.1 (U.1.length + 1) U.2.2 with hgIdef
    have hUnn : U.1 ≠ [] := by
      intro hc
      have hl := hchar.1
      rw [hc] at hl
      simp at hl
      omega
    have hI0 : gI.headD [] = g1.headD [] ∧ g1.length ≤ gI.length := by
      rw [hgIdef]
      by_cases hins : U.2.2.isEmpty = true
      · rw [if_pos hins]
        exact ⟨by rw [headD_eq_getD, headD_eq_getD]; exact hU0,
          le_of_eq hchar.1.symm⟩
      · rw [if_neg hins, setValuesAt_append]
        constructor
        · rw [headD_append_left hUnn, headD_eq_getD, headD_eq_getD]
          exact hU0
        · rw [List.length_append, hchar.1]
          omega
    have hranges : ∀ p ∈ sortDesc plan, 1 ≤ p ∧ p ≤ gI.length := by
      intro p hp
      have hp2 := hplan2 p ((sortDesc_perm _).mem_iff.mp hp)
      exact ⟨by omega, le_trans hp2.2 hI0.2⟩
    have hsorted : (sortDesc plan).Pairwise (fun a b => b < a) := by
      rw [hplandef, hemapdef]
      exact sortDesc_deletePlan_strict pd ws we dmap g1.tail
    have happly := foldl_deleteRowAt_removeIdxs (sortDesc plan) gI hsorted hranges
    have hgInn : gI ≠ [] := by
      intro hc
      have := congrArg List.length hc
      simp only [List.length_nil] at this
      have h2 := hI0.2
      omega
    have hzero : 0 ∉ (sortDesc plan).map (· - 1) := by
      intro hc
      rcases List.mem_map.mp hc with ⟨q, hq, hqe⟩
      have := hplan2 q ((sortDesc_perm _).mem_iff.mp hq)
      omega
    have hfin : (syncCalendarToSheet pd iso events ws we g0).headD []
        = g1.headD [] := by
      rw [hsync, happly, removeIdxs_head hgInn hzero]
      exact hI0.1
    refine ⟨hfin, ?_⟩
    rw [hfin]
    rw [hg1def]
    exact ensureHeader_head_valid g0

/-! ## C1: the deletion guard -/

theorem delCond_iff (pd : String → Option Int) (ws we : Int) (v : Row) :
    delCond pd ws we v = true ↔
      truthy (v.getD 2 Cell.null) = true ∧ truthy (v.getD 3 Cell.null) = true
      ∧ ∃ t, cellToTime pd (v.getD 2 Cell.null) = some t ∧ ws ≤ t ∧ t ≤ we := by
  rw [delCond]
  rcases h : cellToTime pd (v.getD 2 Cell.null) with _ | t
  · simp [h]
  · simp [h, Bool.and_eq_true, decide_eq_true_iff, and_assoc]

theorem mem_unique_of_keysDistinct {α : Type} {m : List (Cell × α)}
    (hd : KeysDistinct m) {k : Cell} {v₁ v₂ : α}
    (h₁ : (k, v₁) ∈ m) (h₂ : (k, v₂) ∈ m) : v₁ = v₂ := by
  have e₁ := lookupKey_of_mem hd h₁
  have e₂ := lookupKey_of_mem hd h₂
  rw [e₁] at e₂
  exact Option.some_inj.mp e₂

theorem getD_succ_tail (g : Grid) (j : Nat) :
    g.getD (j + 1) [] = g.tail.getD j [] := by
  cases g <;> rfl

theorem getD_append_left {l l' : Grid} {j : Nat} (h : j < l.length) :
    (l ++ l').getD j [] = l.getD j [] := by
  rw [List.getD_eq_getElem?_getD, List.getElem?_append, if_pos h,
    List.getD_eq_getElem?_getD]

theorem removeIdxsAux_mem_of_not_removed {s : List Nat} :
    ∀ (g : Grid) (i j : Nat), j < g.length → (i + j) ∉ s →
      g.getD j [] ∈ removeIdxsAux s i g := by
  intro g
  induction g with
  | nil => intro i j hj; simp at hj
  | cons r g' ih =>
      intro i j hj hns
      cases j with
      | zero =>
          show r ∈ (if i ∈ s then _ else _)
          rw [if_neg (by simpa using hns)]
          simp
      | succ j' =>
          show (g'.getD j' []) ∈ (if i ∈ s then _ else _)
          have hmem := ih (i + 1) j' (by simpa using hj)
            (by rw [show i + 1 + j' = i + (j' + 1) from by omega]; exact hns)
          by_cases hi : i ∈ s
          · rw [if_pos hi]; exact hmem
          · rw [if_neg hi]; exact List.mem_cons.mpr (Or.inr hmem)

theorem removeIdxs_mem_of_not_removed {g : Grid} {s : List Nat} {j : Nat}
    (hj : j < g.length) (h : j ∉ s) : g.getD j [] ∈ removeIdxs g s :=
  removeIdxsAux_mem_of_not_removed g 0 j hj (by simpa using h)

/-- C1 (amended): in the deletion pass, an indexed row whose id is absent
upstream is marked for deletion iff its `values[2]` and `values[3]` are both
truthy (non-empty) and `new Date(values[2])` is a valid instant inside
`[window.start, window.end]` — the end cell is never parsed; every such row
failing this condition is still present, with its values intact, after the
whole pass. -/
theorem deletion_guard_spec (pd : String → Option Int) (iso : Int → String)
    (events : List CalEvent) (ws we : Int) (g0 : Grid) (k : Cell)
    (ex : RowEntry) (hmem : (k, ex) ∈ rowsToMap (ensureHeader g0).tail)
    (habs : hasKey (buildDesiredMap (events.map (eventToRow iso))) k = false) :
    (ex.rowIndex ∈ deletePlan pd ws we
        (buildDesiredMap (events.map (eventToRow iso)))
        (rowsToMap (ensureHeader g0).tail)
      ↔ truthy (ex.values.getD 2 Cell.null) = true
        ∧ truthy (ex.values.getD 3 Cell.null) = true
        ∧ ∃ t, cellToTime pd (ex.values.getD 2 Cell.null) = some t
            ∧ ws ≤ t ∧ t ≤ we)
    ∧ (delCond pd ws we ex.values = false →
        ex.values ∈ syncCalendarToSheet pd iso events ws we g0) := by
  have hg1pos := ensureHeader_length_pos g0
  set g1 := ensureHeader g0 with hg1def
  set dmap := buildDesiredMap (events.map (eventToRow iso)) with hdmapdef
  set emap := rowsToMap g1.tail with hemapdef
  have hkd := keysDistinct_rowsToMap g1.tail
  rcases rowsToMap_mem_spec hmem with ⟨j, hj, hji, hjv, hjk, hjt⟩
  have hiff : ex.rowIndex ∈ deletePlan pd ws we dmap emap
      ↔ delCond pd ws we ex.values = true := by
    constructor
    · intro hp
      rcases deletePlan_mem_spec hp with ⟨k', ex', hm', _, hdc', hpe⟩
      have hkk : k = k' := rowsToMap_rowIndex_inj hmem hm' hpe
      subst hkk
      have hee : ex = ex' := mem_unique_of_keysDistinct hkd hmem hm'
      rw [hee]
      exact hdc'
    · intro hdc
      exact deletePlan_mem_of hmem habs hdc
  refine ⟨hiff.trans (delCond_iff pd ws we ex.values), ?_⟩
  intro hdc
  have hchar := upsertPhase_grid_char pd emap dmap g1
    (keysDistinct_buildDesiredMap _) (emap_lookup_inj _)
    (emap_lookup_range _ hg1pos)
  set U := upsertPhase pd emap dmap g1 with hUdef
  set plan := deletePlan pd ws we dmap emap with hplandef
  have hjlt : j + 1 < g1.length := by
    rw [List.length_tail] at hj
    omega
  have hU1 : U.1.getD (j + 1) [] = ex.values := by
    rw [hchar.2 (j + 1)]
    rcases hu : updTarget pd emap dmap (j + 1 + 1) with _ | row
    · rw [getD_succ_tail, hjv]
    · rcases updTarget_some_spec hu with ⟨e, he, ex'', hl'', hr'', _, _⟩
      have hkk : e.1 = k := by
        refine emap_lookup_inj g1.tail e.1 k ex'' ex hl'' ?_ (by omega)
        exact lookupKey_of_mem hkd hmem
      have : hasKey dmap e.1 = true := by
        rcases he with he'
        exact hasKey_iff_mem.mpr ⟨e.2, by simpa using he⟩
      rw [hkk] at this
      rw [this] at habs
      exact absurd habs (by simp)
  set gI := if U.2.2.isEmpty then U.1
            else setValuesAt U.1 (U.1.length + 1) U.2.2 with hgIdef
  have hsync : syncCalendarToSheet pd iso events ws we g0
      = (sortDesc plan).foldl deleteRowAt gI := rfl
  have hI1 : gI.getD (j + 1) [] = ex.values ∧ g1.length ≤ gI.length := by
    rw [hgIdef]
    by_cases hins : U.2.2.isEmpty = true
    · rw [if_pos hins]
      exact ⟨hU1, le_of_eq hchar.1.symm⟩
    · rw [if_neg hins, setValuesAt_append]
      constructor
      · rw [getD_append_left (by rw [hchar.1]; omega)]
        exact hU1
      · rw [List.length_append, hchar.1]
        omega
  have hplan2 : ∀ p ∈ plan, 2 ≤ p ∧ p ≤ g1.length := by
    intro p hp
    rcases deletePlan_mem_spec hp with ⟨k', ex', hm', _, _, hpe⟩
    rcases rowsToMap_mem_spec hm' with ⟨j', hj', hji', _⟩
    rw [List.length_tail] at hj'
    omega
  have hranges : ∀ p ∈ sortDesc plan, 1 ≤ p ∧ p ≤ gI.length := by
    intro p hp
    have hp2 := hplan2 p ((sortDesc_perm _).mem_iff.mp hp)
    exact ⟨by omega, le_trans hp2.2 hI1.2⟩
  have hsorted : (sortDesc plan).Pairwise (fun a b => b < a) := by
    rw [hplandef, hemapdef]
    exact sortDesc_deletePlan_strict pd ws we dmap g1.tail
  have happly := foldl_deleteRowAt_removeIdxs (sortDesc plan) gI hsorted hranges
  have hnotin : (j + 1) ∉ (sortDesc plan).map (· - 1) := by
    intro hc
    rcases List.mem_map.mp hc with ⟨q, hq, hqe⟩
    have hq' := (sortDesc_perm _).mem_iff.mp hq
    have hq2 := hplan2 q hq'
    have hqr : q = ex.rowIndex := by omega
    rw [hqr] at hq'
    have := hiff.mp hq'
    rw [this] at hdc
    exact absurd hdc (by simp)
  rw [hsync, happly]
  have := removeIdxs_mem_of_not_removed
    (g := gI) (s := (sortDesc plan).map (· - 1)) (j := j + 1)
    (by omega) hnotin
  rwa [hI1.1] at this

/-- Shared concrete fixture: a parser that reads only the string `"S"`. -/
def pdFix : String → Option Int := fun s => if s = "S" then some 5 else none

/-- Shared concrete fixture: an ISO formatter stub (no events are projected
in the fixtures). -/
def isoFix : Int → String := fun _ => ""

theorem deletion_guard_spec_witness :
    ([Cell.str "x", Cell.str "t", Cell.str "S", Cell.str "E", Cell.str "",
      Cell.str "", Cell.str ""] : Row)
      ∈ syncCalendarToSheet pdFix isoFix [] 6 10
        [expectedHeader,
         [Cell.str "x", Cell.str "t", Cell.str "S", Cell.str "E", Cell.str "",
          Cell.str "", Cell.str ""]] := by
  have h := deletion_guard_spec pdFix isoFix [] 6 10
    [expectedHeader,
     [Cell.str "x", Cell.str "t", Cell.str "S", Cell.str "E", Cell.str "",
      Cell.str "", Cell.str ""]]
    (Cell.str "x")
    ⟨2, [Cell.str "x", Cell.str "t", Cell.str "S", Cell.str "E", Cell.str "",
         Cell.str "", Cell.str ""]⟩
    (by decide) (by decide)
  exact h.2 (by decide)

/-- C1 counterexample: the stored end cell `"garbage"` does not parse to a
valid instant, yet the row is deleted (the engine only checks the end cell
for truthiness and parses the start cell alone), so "both parse to valid
instants" is not required for deletion. -/
theorem deletion_guard_counterexample :
    pdFix "garbage" = none
    ∧ syncCalendarToSheet pdFix isoFix [] 0 10
        [expectedHeader,
         [Cell.str "x", Cell.str "t", Cell.str "S", Cell.str "garbage",
          Cell.str "", Cell.str "", Cell.str ""]]
      = [expectedHeader] := by
  constructor
  · decide
  · decide

/-! ## Decimal parse/print round trip (checkpoint serialization) -/

theorem digitChar_facts {d : Nat} (h : d < 10) :
    digitVal? (digitChar d) = some d ∧ isJsSpace (digitChar d) = false
    ∧ digitChar d ≠ '-' ∧ digitChar d ≠ '+'
    ∧ digitChar d ≠ 'x' ∧ digitChar d ≠ 'X' := by
  interval_cases d <;> exact ⟨rfl, rfl, by decide, by decide, by decide, by decide⟩

theorem natDigitsRev_spec (n : Nat) :
    natDigitsRev n ≠ [] ∧ (∀ d ∈ natDigitsRev n, d < 10) := by
  induction n using Nat.strong_induction_on with
  | _ n ih =>
      rw [natDigitsRev]
      by_cases h : n < 10
      · rw [dif_pos h]
        exact ⟨by simp, by intro d hd; simp at hd; omega⟩
      · rw [dif_neg h]
        have hdiv : n / 10 < n := Nat.div_lt_self (by omega) (by omega)
        refine ⟨by simp, ?_⟩
        intro d hd
        rcases List.mem_cons.mp hd with hh | ht
        · subst hh; exact Nat.mod_lt n (by omega)
        · exact (ih (n / 10) hdiv).2 d ht

theorem natDigitsRev_foldl (n : Nat) :
    ∀ acc : Nat, (natDigitsRev n).reverse.foldl (fun a d => a * 10 + d) acc
      = acc * 10 ^ (natDigitsRev n).length + n := by
  induction n using Nat.strong_induction_on with
  | _ n ih =>
      intro acc
      rw [natDigitsRev]
      by_cases h : n < 10
      · rw [dif_pos h]
        simp
      · rw [dif_neg h]
        have hdiv : n / 10 < n := Nat.div_lt_self (by omega) (by omega)
        simp only [List.reverse_cons, List.foldl_append, List.length_cons]
        rw [ih (n / 10) hdiv acc]
        simp only [List.foldl_cons, List.foldl_nil]
        rw [pow_succ]
        have := Nat.div_add_mod n 10
        ring_nf
        omega

theorem parsePrefix_digits :
    ∀ (l : List Nat), (∀ d ∈ l, d < 10) → ∀ acc : Nat,
      parsePrefix digitVal? 10 (l.map digitChar) acc true
        = some (l.foldl (fun a d => a * 10 + d) acc) := by
  intro l
  induction l with
  | nil => intro _ acc; rfl
  | cons d ds ih =>
      intro hd acc
      rw [List.map_cons, List.foldl_cons]
      show (match digitVal? (digitChar d) with
            | some d' => parsePrefix digitVal? 10 (ds.map digitChar)
                (acc * 10 + d') true
            | none => some acc) = _
      rw [(digitChar_facts (hd d (by simp))).1]
      exact ih (fun x hx => hd x (by simp [hx])) (acc * 10 + d)

theorem parsePrefix_digits_start {d : Nat} {ds : List Nat}
    (h : ∀ x ∈ d :: ds, x < 10) :
    parsePrefix digitVal? 10 ((d :: ds).map digitChar) 0 false
      = some ((d :: ds).foldl (fun a d => a * 10 + d) 0) := by
  rw [List.map_cons]
  show (match digitVal? (digitChar d) with
        | some d' => parsePrefix digitVal? 10 (ds.map digitChar)
            (0 * 10 + d') true
        | none => none) = _
  rw [(digitChar_facts (h d (by simp))).1]
  rw [List.foldl_cons]
  exact parsePrefix_digits ds (fun x hx => h x (by simp [hx])) (0 * 10 + d)

theorem parseIntCore_not_hex {l : List Char}
    (h : ∀ c ∈ l, (digitVal? c).isSome = true) :
    parseIntCore l = parsePrefix digitVal? 10 l 0 false := by
  unfold parseIntCore
  split
  · exact absurd (h 'x' (by simp)) (by decide)
  · exact absurd (h 'X' (by simp)) (by decide)
  · rfl

theorem parseIntCore_digits (l : List Nat) (hne : l ≠ [])
    (hd : ∀ d ∈ l, d < 10) :
    parseIntCore (l.map digitChar)
      = some (l.foldl (fun a d => a * 10 + d) 0) := by
  have hall : ∀ c ∈ l.map digitChar, (digitVal? c).isSome = true := by
    intro c hc
    rcases List.mem_map.mp hc with ⟨d, hdm, hde⟩
    rw [← hde, (digitChar_facts (hd d hdm)).1]
    rfl
  rw [parseIntCore_not_hex hall]
  cases l with
  | nil => exact absurd rfl hne
  | cons d ds => exact parsePrefix_digits_start hd

/-- The checkpoint serialization round trip: `parseInt` reads back exactly
the decimal rendering that `saveLastSyncTime` writes. -/
theorem jsParseInt_intToDecStr (t : Int) :
    jsParseInt (intToDecStr t) = some t := by
  have hspec := natDigitsRev_spec t.natAbs
  have hfold := natDigitsRev_foldl t.natAbs 0
  have hDne : (natDigitsRev t.natAbs).reverse ≠ [] := by
    intro hc
    exact hspec.1 (by simpa using congrArg List.reverse hc)
  have hDlt : ∀ d ∈ (natDigitsRev t.natAbs).reverse, d < 10 :=
    fun d hd => hspec.2 d (List.mem_reverse.mp hd)
  have hval : (natDigitsRev t.natAbs).reverse.foldl
      (fun a d => a * 10 + d) 0 = t.natAbs := by
    rw [hfold]
    simp
  have hcore := parseIntCore_digits _ hDne hDlt
  rw [hval] at hcore
  rcases hD : (natDigitsRev t.natAbs).reverse with _ | ⟨d₀, D'⟩
  · exact absurd hD hDne
  have hd₀ : d₀ < 10 := hDlt d₀ (by rw [hD]; simp)
  by_cases ht : t < 0
  · have hstr : (intToDecStr t).data
        = '-' :: (natDigitsRev t.natAbs).reverse.map digitChar := by
      rw [intToDecStr, if_pos ht]
      rfl
    rw [jsParseInt, hstr]
    have hdw : List.dropWhile isJsSpace
        ('-' :: (natDigitsRev t.natAbs).reverse.map digitChar)
        = '-' :: (natDigitsRev t.natAbs).reverse.map digitChar := rfl
    rw [hdw]
    show ((parseIntCore ((natDigitsRev t.natAbs).reverse.map digitChar)).map
        (fun n => -(n : Int))) = some t
    rw [hcore]
    show some (-(t.natAbs : Int)) = some t
    congr 1
    omega
  · have hstr : (intToDecStr t).data
        = (natDigitsRev t.natAbs).reverse.map digitChar := by
      rw [intToDecStr, if_neg ht]
      rfl
    rw [jsParseInt, hstr, hD, List.map_cons]
    have hdw : List.dropWhile isJsSpace
        (digitChar d₀ :: D'.map digitChar)
        = digitChar d₀ :: D'.map digitChar := by
      rw [List.dropWhile, (digitChar_facts hd₀).2.1]
    rw [hdw]
    rw [hD, List.map_cons] at hcore
    split
    · rename_i rest heq
      simp only [List.cons.injEq] at heq
      exact absurd heq.1 (digitChar_facts hd₀).2.2.1
    · rename_i rest heq
      simp only [List.cons.injEq] at heq
      exact absurd heq.1 (digitChar_facts hd₀).2.2.2.1
    · rw [hcore]
      show some ((t.natAbs : Nat) : Int) = some t
      congr 1
      omega

/-! ## C6: checkpoint writes -/

theorem mem_of_getLastQ {α : Type} {l : List α} {a : α}
    (h : a ∈ l.getLast?) : a ∈ l := by
  rcases List.mem_getLast?_eq_getLast h with ⟨hne, he⟩
  rw [he]
  exact List.getLast_mem hne

theorem getLastSyncTimeM_bounds (st : Option String) :
    -(maxDateMs : Int) ≤ getLastSyncTimeM st
    ∧ getLastSyncTimeM st ≤ (maxDateMs : Int) := by
  have hB : (maxDateMs : Int) = 8640000000000000 := rfl
  rcases st with _ | s
  · show -(maxDateMs : Int) ≤ 0 ∧ (0 : Int) ≤ (maxDateMs : Int)
    omega
  · rcases hp : jsParseInt s with _ | t
    · have h0 : getLastSyncTimeM (some s) = 0 := by
        unfold getLastSyncTimeM
        simp only []
        rw [hp]
      rw [h0]
      omega
    · have h0 : getLastSyncTimeM (some s)
          = if t.natAbs ≤ maxDateMs then t else 0 := by
        unfold getLastSyncTimeM
        simp only []
        rw [hp]
      rw [h0]
      by_cases hb : t.natAbs ≤ maxDateMs
      · rw [if_pos hb]
        omega
      · rw [if_neg hb]
        omega

theorem getLastSyncTimeM_roundtrip {t : Int}
    (h1 : -(maxDateMs : Int) ≤ t) (h2 : t ≤ (maxDateMs : Int)) :
    getLastSyncTimeM (some (intToDecStr t)) = t := by
  have hB : (maxDateMs : Int) = 8640000000000000 := rfl
  unfold getLastSyncTimeM
  simp only []
  rw [jsParseInt_intToDecStr t]
  show (if t.natAbs ≤ maxDateMs then t else 0) = t
  rw [if_pos (by omega)]

theorem syncLoop_spec (ok : Int → Int → Bool) :
    ∀ (fuel : Nat) (cs e : Int) (st : Option String),
      (∀ w ∈ (syncLoop ok fuel cs e st).1, cs < w ∧ w ≤ e)
      ∧ (syncLoop ok fuel cs e st).1.Chain' (· < ·)
      ∧ (∀ w ∈ (syncLoop ok fuel cs e st).1, ∃ s', ok s' w = true)
      ∧ ((syncLoop ok fuel cs e st).1 = [] ∧ (syncLoop ok fuel cs e st).2.1 = st
         ∨ ∃ w ∈ (syncLoop ok fuel cs e st).1,
             (syncLoop ok fuel cs e st).2.1 = some (intToDecStr w)
             ∧ ∀ w' ∈ (syncLoop ok fuel cs e st).1, w' ≤ w) := by
  intro fuel
  induction fuel with
  | zero =>
      intro cs e st
      exact ⟨by simp [syncLoop], by simp [syncLoop], by simp [syncLoop],
        Or.inl ⟨rfl, rfl⟩⟩
  | succ f ih =>
      intro cs e st
      by_cases hlt : cs < e
      · have heffb : cs < effEnd cs e ∧ effEnd cs e ≤ e := by
          have hW : W = 31536000000 := rfl
          have hT : TMW = 600000 := rfl
          rw [effEnd]
          by_cases h1 : cs + W < e
          · rw [if_pos h1]
            by_cases h2 : e - (cs + W) ≤ TMW
            · rw [if_pos h2]; omega
            · rw [if_neg h2]; omega
          · rw [if_neg h1]; omega
        by_cases hok : ok cs (effEnd cs e) = true
        · have hstep : syncLoop ok (f + 1) cs e st
              = (effEnd cs e
                  :: (syncLoop ok f (effEnd cs e) e
                      (some (intToDecStr (effEnd cs e)))).1,
                 (syncLoop ok f (effEnd cs e) e
                    (some (intToDecStr (effEnd cs e)))).2.1,
                 (syncLoop ok f (effEnd cs e) e
                    (some (intToDecStr (effEnd cs e)))).2.2) := by
            rw [syncLoop, if_pos hlt, if_pos hok]
          obtain ⟨ih1, ih2, ih3, ih4⟩ := ih (effEnd cs e) e
            (some (intToDecStr (effEnd cs e)))
          rw [hstep]
          refine ⟨?_, ?_, ?_, ?_⟩
          · intro w hw
            rcases List.mem_cons.mp hw with hh | ht'
            · rw [hh]; exact heffb
            · have := ih1 w ht'
              exact ⟨by omega, this.2⟩
          · rw [List.chain'_cons']
            refine ⟨?_, ih2⟩
            intro y hy
            exact (ih1 y (List.mem_of_mem_head? hy)).1
          · intro w hw
            rcases List.mem_cons.mp hw with hh | ht'
            · exact ⟨cs, hh ▸ hok⟩
            · exact ih3 w ht'
          · right
            rcases ih4 with ⟨hnil, hst⟩ | ⟨w, hwm, hwe, hwmax⟩
            · refine ⟨effEnd cs e, by simp, by rw [hst], ?_⟩
              intro w' hw'
              rw [hnil] at hw'
              rcases List.mem_cons.mp hw' with hh | ht'
              · omega
              · simp at ht'
            · refine ⟨w, by simp [hwm], hwe, ?_⟩
              intro w' hw'
              rcases List.mem_cons.mp hw' with hh | ht'
              · have := (ih1 w hwm).1
                omega
              · exact hwmax w' ht'
        · have hstep : syncLoop ok (f + 1) cs e st = ([], st, true) := by
            rw [syncLoop, if_pos hlt, if_neg hok]
          rw [hstep]
          exact ⟨by simp, by simp, by simp, Or.inl ⟨rfl, rfl⟩⟩
      · have hstep : syncLoop ok (f + 1) cs e st = ([], st, false) := by
          rw [syncLoop, if_neg hlt]
        rw [hstep]
        exact ⟨by simp, by simp, by simp, Or.inl ⟨rfl, rfl⟩⟩

theorem syncOne_call_spec (st : Option String) (now : Int)
    (h0 : 0 ≤ now) (hB : now ≤ (maxDateMs : Int))
    (hpre : getLastSyncTimeM st ≤ now) :
    (syncOneWrites (fun _ _ => true) st none none now).1.Chain' (· < ·)
    ∧ (∀ w ∈ (syncOneWrites (fun _ _ => true) st none none now).1,
        getLastSyncTimeM st < w ∧ w ≤ now
        ∧ w ≤ getLastSyncTimeM
            (syncOneWrites (fun _ _ => true) st none none now).2.1)
    ∧ getLastSyncTimeM st
        ≤ getLastSyncTimeM (syncOneWrites (fun _ _ => true) st none none now).2.1
    ∧ getLastSyncTimeM (syncOneWrites (fun _ _ => true) st none none now).2.1
        ≤ now := by
  have hse : syncOneStartEnd st none none now
      = (getLastSyncTimeM st, now, st) := by
    rw [syncOneStartEnd]
    simp only [Option.getD_none, Option.isSome_none, Bool.false_and,
      Bool.false_eq_true, if_false, if_neg (not_lt.mpr hpre)]
  have hsw : syncOneWrites (fun _ _ => true) st none none now
      = syncLoop (fun _ _ => true) 100 (getLastSyncTimeM st) now st := by
    rw [syncOneWrites, hse]
  obtain ⟨L1, L2, _, L4⟩ :=
    syncLoop_spec (fun _ _ => true) 100 (getLastSyncTimeM st) now st
  rw [hsw]
  rcases L4 with ⟨hnil, hst⟩ | ⟨w, hwm, hwe, hwmax⟩
  · rw [hst]
    refine ⟨L2, ?_, le_refl _, hpre⟩
    intro w hw
    rw [hnil] at hw
    simp at hw
  · have hwb := L1 w hwm
    have hstb := getLastSyncTimeM_bounds st
    have hB' : (maxDateMs : Int) = 8640000000000000 := rfl
    have hcp' : getLastSyncTimeM
        (syncLoop (fun _ _ => true) 100 (getLastSyncTimeM st) now st).2.1 = w := by
      rw [hwe]
      exact getLastSyncTimeM_roundtrip (by omega) (by omega)
    rw [hcp']
    refine ⟨L2, ?_, by omega, by omega⟩
    intro w' hw'
    exact ⟨(L1 w' hw').1, (L1 w' hw').2, hwmax w' hw'⟩

theorem runCalls_spec : ∀ (nows : List Int) (st : Option String),
    nows.Chain' (· ≤ ·) → (∀ n ∈ nows, 0 ≤ n ∧ n ≤ (maxDateMs : Int)) →
    (∀ n, nows.head? = some n → getLastSyncTimeM st ≤ n) →
    (runCalls st nows).Chain' (· ≤ ·)
    ∧ ∀ w ∈ runCalls st nows, getLastSyncTimeM st < w := by
  intro nows
  induction nows with
  | nil =>
      intro st _ _ _
      exact ⟨by simp [runCalls], by simp [runCalls]⟩
  | cons now rest ih =>
      intro st hchain hb hpre
      have hnow := hb now (by simp)
      have hpre1 : getLastSyncTimeM st ≤ now := hpre now rfl
      obtain ⟨c1, c2, c3, c4⟩ := syncOne_call_spec st now hnow.1 hnow.2 hpre1
      have hrun : runCalls st (now :: rest)
          = (syncOneWrites (fun _ _ => true) st none none now).1
            ++ runCalls
              (syncOneWrites (fun _ _ => true) st none none now).2.1 rest := rfl
      have hchain' : rest.Chain' (· ≤ ·) := (List.chain'_cons'.mp hchain).2
      have hb' : ∀ n ∈ rest, 0 ≤ n ∧ n ≤ (maxDateMs : Int) :=
        fun n hn => hb n (by simp [hn])
      have hpre' : ∀ n, rest.head? = some n →
          getLastSyncTimeM
            (syncOneWrites (fun _ _ => true) st none none now).2.1 ≤ n := by
        intro n hn
        have hnn : now ≤ n := (List.chain'_cons'.mp hchain).1 n (by rw [hn]; rfl)
        omega
      obtain ⟨r1, r2⟩ := ih _ hchain' hb' hpre'
      rw [hrun]
      constructor
      · rw [List.chain'_append]
        refine ⟨c1.imp (fun a b h => le_of_lt h), r1, ?_⟩
        intro x hx y hy
        have hx' := c2 x (mem_of_getLastQ hx)
        have hy' := r2 y (List.mem_of_mem_head? hy)
        omega
      · intro w hw
        rcases List.mem_append.mp hw with h | h
        · exact (c2 w h).1
        · have h1 := r2 w h
          omega

/-- C6 (amended): every checkpoint write records the `effectiveEnd` of a
window whose reconciliation completed without throwing (a window that throws
never advances the checkpoint), and across N sequential successful
`syncCalendarToSheetGAS` calls with no explicit start or end override, made
at non-decreasing in-range clock readings, the concatenated checkpoint
writes are non-decreasing. -/
theorem checkpoint_write_spec :
    (∀ (ok : Int → Int → Bool) (st : Option String) (si ei : Option Int)
       (now w : Int), w ∈ (syncOneWrites ok st si ei now).1 →
       ∃ s, ok s w = true)
    ∧ ∀ (st : Option String) (nows : List Int), nows.Chain' (· ≤ ·) →
       (∀ n ∈ nows, 0 ≤ n ∧ n ≤ (maxDateMs : Int)) →
       (runCalls st nows).Chain' (· ≤ ·) := by
  constructor
  · intro ok st si ei now w hw
    exact (syncLoop_spec ok 100 (syncOneStartEnd st si ei now).1
      (syncOneStartEnd st si ei now).2.1
      (syncOneStartEnd st si ei now).2.2).2.2.1 w hw
  · intro st nows hchain hb
    cases nows with
    | nil => simp [runCalls]
    | cons now rest =>
        have hnow := hb now (by simp)
        by_cases hpre : getLastSyncTimeM st ≤ now
        · refine (runCalls_spec (now :: rest) st hchain hb ?_).1
          intro n hn
          rw [List.head?_cons, Option.some_inj] at hn
          omega
        · have hA : syncOneStartEnd st none none now = (0, now, none) := by
            rw [syncOneStartEnd]
            simp only [Option.getD_none, Option.isSome_none, Bool.false_and,
              Bool.false_eq_true, if_false, if_pos (lt_of_not_le hpre)]
            rfl
          have hBB : syncOneStartEnd (none : Option String) none none now
              = (0, now, none) := by
            rw [syncOneStartEnd]
            simp only [Option.getD_none, Option.isSome_none, Bool.false_and,
              Bool.false_eq_true, if_false,
              if_neg (not_lt.mpr (show getLastSyncTimeM none ≤ now from hnow.1))]
            rfl
          have heq : syncOneWrites (fun _ _ => true) st none none now
              = syncOneWrites (fun _ _ => true) none none none now := by
            rw [syncOneWrites, syncOneWrites, hA, hBB]
          have hrun : runCalls st (now :: rest)
              = runCalls none (now :: rest) := by
            show (syncOneWrites (fun _ _ => true) st none none now).1
                ++ runCalls
                  (syncOneWrites (fun _ _ => true) st none none now).2.1 rest
              = (syncOneWrites (fun _ _ => true) none none none now).1
                ++ runCalls
                  (syncOneWrites (fun _ _ => true) none none none now).2.1 rest
            rw [heq]
          rw [hrun]
          refine (runCalls_spec (now :: rest) none hchain hb ?_).1
          intro n hn
          rw [List.head?_cons, Option.some_inj] at hn
          have : getLastSyncTimeM (none : Option String) = 0 := rfl
          omega

theorem checkpoint_write_spec_witness :
    (runCalls none [W, 4 * W]).Chain' (· ≤ ·)
    ∧ ∃ s, (fun (_ _ : Int) => true) s (0 : Int) = true := by
  constructor
  · refine checkpoint_write_spec.2 none [W, 4 * W] ?_ ?_
    · have hW : W = 31536000000 := rfl
      exact List.chain'_cons.mpr ⟨by omega, List.chain'_singleton _⟩
    · decide
  · exact ⟨0, rfl⟩

/-- C6 counterexample: after a successful call at `now = 4W` (checkpoint
`4W`), a second successful call with an explicit past start (`startIso = 0`)
and no end override writes checkpoints starting at `W < 4W`, so the
checkpoint-value sequence across the two calls decreases. -/
theorem checkpoint_write_counterexample :
    (syncOneWrites (fun _ _ => true) none none none (4 * W)).1
      = [W, 2 * W, 3 * W, 4 * W]
    ∧ (syncOneWrites (fun _ _ => true)
        (syncOneWrites (fun _ _ => true) none none none (4 * W)).2.1
        (some 0) none (4 * W + 1000)).1
      = [W, 2 * W, 3 * W, 4 * W + 1000]
    ∧ ¬ List.Chain' (· ≤ ·)
        ((syncOneWrites (fun _ _ => true) none none none (4 * W)).1
          ++ (syncOneWrites (fun _ _ => true)
              (syncOneWrites (fun _ _ => true) none none none (4 * W)).2.1
              (some 0) none (4 * W + 1000)).1) := by
  have h1 : (syncOneWrites (fun _ _ => true) none none none (4 * W)).1
      = [W, 2 * W, 3 * W, 4 * W] := by decide
  have h2 : (syncOneWrites (fun _ _ => true)
      (syncOneWrites (fun _ _ => true) none none none (4 * W)).2.1
      (some 0) none (4 * W + 1000)).1
      = [W, 2 * W, 3 * W, 4 * W + 1000] := by decide
  refine ⟨h1, h2, ?_⟩
  intro hc
  rw [h1, h2] at hc
  have hW : W = 31536000000 := rfl
  have h4 : 4 * W ≤ W := by
    have := List.chain'_cons.mp
      (List.chain'_cons.mp (List.chain'_cons.mp hc).2).2
    exact (List.chain'_cons.mp this.2).1
  omega

/-! ## C8: idempotence support lemmas -/

theorem cellEq_refl (pd : String → Option Int) (c : Cell) :
    cellEq pd c c = true := by
  simp [cellEq]

theorem rowsEqual_refl_append (pd : String → Option Int) :
    ∀ (a rest : List Cell), rowsEqual pd a (a ++ rest) = true := by
  intro a
  induction a with
  | nil => intro rest; rfl
  | cons x xs ih =>
      intro rest
      show (cellEq pd x ((x :: (xs ++ rest)).headD Cell.null)
        && rowsEqual pd xs (x :: (xs ++ rest)).tail) = true
      rw [List.headD_cons, List.tail_cons, cellEq_refl, ih]
      rfl

theorem rowsEqual_refl (pd : String → Option Int) (a : List Cell) :
    rowsEqual pd a a = true := by
  have := rowsEqual_refl_append pd a []
  rwa [List.append_nil] at this

/-- `ensureHeader` is a no-op on a non-empty grid with a valid header
(independent helper; also the content of one direction of C9). -/
theorem ensureHeader_noop {g : Grid} (hg : g ≠ [])
    (hv : validHeader (g.headD []) = true) : ensureHeader g = g := by
  rw [ensureHeader, if_neg (by simpa using hg), hv]
  simp

theorem upsertPhase_noop (pd : String → Option Int)
    (emap : List (Cell × RowEntry)) :
    ∀ (entries : List (Cell × Row)) (g : Grid),
      (∀ e ∈ entries, ∃ ex, lookupKey emap e.1 = some ex
        ∧ rowsEqual pd e.2 ex.values = true) →
      upsertPhase pd emap entries g = (g, [], []) := by
  intro entries
  induction entries with
  | nil => intro g _; rfl
  | cons e rest ih =>
      intro g h
      rcases h e (by simp) with ⟨ex, hl, hre⟩
      rw [upsertPhase, hl]
      simp only []
      rw [if_pos hre]
      exact ih g (fun f hf => h f (by simp [hf]))

theorem deletePlan_nil (pd : String → Option Int) (ws we : Int)
    (dmap : List (Cell × Row)) :
    ∀ emap : List (Cell × RowEntry),
      (∀ e ∈ emap, hasKey dmap e.1 = false →
        delCond pd ws we e.2.values = false) →
      deletePlan pd ws we dmap emap = [] := by
  intro emap
  induction emap with
  | nil => intro _; rfl
  | cons e rest ih =>
      intro h
      rw [deletePlan]
      by_cases hhk : hasKey dmap e.1 = true
      · rw [if_pos hhk]
        exact ih (fun f hf => h f (by simp [hf]))
      · have hhkf : hasKey dmap e.1 = false := by
          revert hhk; cases hasKey dmap e.1 <;> simp
        rw [if_neg hhk, if_neg (by rw [h e (by simp) hhkf]; simp)]
        exact ih (fun f hf => h f (by simp [hf]))

theorem updTarget_none_spec {pd : String → Option Int}
    {emap : List (Cell × RowEntry)} {p : Nat} :
    ∀ {entries : List (Cell × Row)},
      updTarget pd emap entries p = none →
      ∀ e ∈ entries, ∀ ex, lookupKey emap e.1 = some ex → ex.rowIndex = p →
        rowsEqual pd e.2 ex.values = true := by
  intro entries
  induction entries with
  | nil => intro _ e he; simp at he
  | cons f rest ih =>
      intro h e he ex hl hp
      rw [updTarget, List.findSome?_cons] at h
      rcases List.mem_cons.mp he with hh | ht
      · subst hh
        rw [hl] at h
        simp only [] at h
        by_cases hc : ex.rowIndex = p ∧ rowsEqual pd e.2 ex.values = false
        · rw [if_pos hc] at h
          exact absurd h (by simp)
        · push_neg at hc
          have := hc hp
          revert this
          cases rowsEqual pd e.2 ex.values <;> simp
      · rcases hlf : lookupKey emap f.1 with _ | exf
        · rw [hlf] at h
          simp only [] at h
          exact ih h e ht ex hl hp
        · rw [hlf] at h
          simp only [] at h
          by_cases hc : exf.rowIndex = p ∧ rowsEqual pd f.2 exf.values = false
          · rw [if_pos hc] at h
            exact absurd h (by simp)
          · rw [if_neg hc] at h
            exact ih h e ht ex hl hp

theorem removeIdxsAux_sublist (s : List Nat) :
    ∀ (g : Grid) (i : Nat), (removeIdxsAux s i g).Sublist g := by
  intro g
  induction g with
  | nil => intro i; simp [removeIdxsAux]
  | cons r g' ih =>
      intro i
      show ((if i ∈ s then removeIdxsAux s (i + 1) g'
        else r :: removeIdxsAux s (i + 1) g')).Sublist (r :: g')
      by_cases hi : i ∈ s
      · rw [if_pos hi]
        exact (ih (i + 1)).cons r
      · rw [if_neg hi]
        exact (ih (i + 1)).cons₂ r

theorem removeIdxsAux_mem_spec {s : List Nat} :
    ∀ {g : Grid} {i : Nat} {v : Row}, v ∈ removeIdxsAux s i g →
      ∃ j, j < g.length ∧ (i + j) ∉ s ∧ g.getD j [] = v := by
  intro g
  induction g with
  | nil => intro i v h; simp [removeIdxsAux] at h
  | cons r g' ih =>
      intro i v h
      by_cases hi : i ∈ s
      · rw [show removeIdxsAux s i (r :: g') = removeIdxsAux s (i + 1) g'
          from by rw [removeIdxsAux, if_pos hi]] at h
        rcases ih h with ⟨j, hj, hns, hv⟩
        exact ⟨j + 1, by simpa using hj,
          by rw [show i + (j + 1) = i + 1 + j from by omega]; exact hns,
          by simpa using hv⟩
      · rw [show removeIdxsAux s i (r :: g')
            = r :: removeIdxsAux s (i + 1) g'
          from by rw [removeIdxsAux, if_neg hi]] at h
        rcases List.mem_cons.mp h with hh | ht
        · exact ⟨0, by simp, by simpa using hi, by simp [hh.symm]⟩
        · rcases ih ht with ⟨j, hj, hns, hv⟩
          exact ⟨j + 1, by simpa using hj,
            by rw [show i + (j + 1) = i + 1 + j from by omega]; exact hns,
            by simpa using hv⟩

theorem getD_append_right {l l' : Grid} {j : Nat} :
    (l ++ l').getD (l.length + j) [] = l'.getD j [] := by
  rw [List.getD_eq_getElem?_getD, List.getElem?_append, if_neg (by omega)]
  rw [List.getD_eq_getElem?_getD]
  congr 1
  congr 1
  omega

theorem mem_getD_exists {l : Grid} {v : Row} (h : v ∈ l) :
    ∃ j, j < l.length ∧ l.getD j [] = v := by
  rcases List.mem_iff_getElem.mp h with ⟨j, hj, he⟩
  exact ⟨j, hj, by rw [List.getD_eq_getElem?_getD, List.getElem?_eq_getElem hj, he]; rfl⟩

theorem filterMap_sublist_map {α β : Type} (f : α → Option β) (g : α → β)
    (hf : ∀ a, f a = none ∨ f a = some (g a)) :
    ∀ l : List α, (l.filterMap f).Sublist (l.map g) := by
  intro l
  induction l with
  | nil => simp
  | cons a rest ih =>
      rw [List.filterMap_cons, List.map_cons]
      rcases hf a with h | h
      · rw [h]
        exact ih.cons _
      · rw [h]
        exact ih.cons₂ _

/-- The id cell of a row. -/
def headKey (r : Row) : Cell := r.headD Cell.null

theorem distinctIds_iff_map (rows : List Row) :
    DistinctIds rows ↔ (rows.map headKey).Pairwise
      (fun a b => truthy a = true → truthy b = true → a ≠ b) := by
  rw [List.pairwise_map]
  exact Iff.rfl

theorem distinctIds_of_map_eq {rows rows' : List Row}
    (h : rows'.map headKey = rows.map headKey) (hd : DistinctIds rows) :
    DistinctIds rows' := by
  rw [distinctIds_iff_map] at hd ⊢
  rwa [h]

theorem removeIdxs_cons_not_mem {r : Row} {g : Grid} {s : List Nat}
    (hs : 0 ∉ s) : removeIdxs (r :: g) s = r :: removeIdxsAux s 1 g := by
  rw [removeIdxs, removeIdxsAux, if_neg hs]

/-- After the upsert phase, every row keeps its id cell: updates overwrite a
row only with a desired row carrying the same id. -/
theorem upsert_map_headKey (pd : String → Option Int) (iso : Int → String)
    (events : List CalEvent) (g1 : Grid) (hg1 : 1 ≤ g1.length) :
    ((upsertPhase pd (rowsToMap g1.tail)
        (buildDesiredMap (events.map (eventToRow iso))) g1).1).map headKey
      = g1.map headKey := by
  have hchar := upsertPhase_grid_char pd (rowsToMap g1.tail)
    (buildDesiredMap (events.map (eventToRow iso))) g1
    (keysDistinct_buildDesiredMap _) (emap_lookup_inj _)
    (emap_lookup_range _ hg1)
  apply List.ext_getElem
  · rw [List.length_map, List.length_map, hchar.1]
  · intro i h1 h2
    rw [List.getElem_map, List.getElem_map]
    have hlt : i < (upsertPhase pd (rowsToMap g1.tail)
        (buildDesiredMap (events.map (eventToRow iso))) g1).1.length := by
      simpa using h1
    have hlt2 : i < g1.length := by simpa using h2
    have hgd1 : (upsertPhase pd (rowsToMap g1.tail)
        (buildDesiredMap (events.map (eventToRow iso))) g1).1[i]
        = (upsertPhase pd (rowsToMap g1.tail)
            (buildDesiredMap (events.map (eventToRow iso))) g1).1.getD i [] := by
      rw [List.getD_eq_getElem?_getD, List.getElem?_eq_getElem hlt]
      rfl
    have hgd2 : g1[i] = g1.getD i [] := by
      rw [List.getD_eq_getElem?_getD, List.getElem?_eq_getElem hlt2]
      rfl
    rw [hgd1, hgd2, hchar.2 i]
    rcases hu : updTarget pd (rowsToMap g1.tail)
        (buildDesiredMap (events.map (eventToRow iso))) (i + 1) with _ | row
    · rfl
    · rcases updTarget_some_spec hu with ⟨e, he, ex, hl, hp, _, hrow⟩
      have he2 : (e.1, e.2) ∈ buildDesiredMap (events.map (eventToRow iso)) := by
        simpa using he
      rcases dmap_entry_spec he2 with ⟨hlen, hhk, _⟩
      rcases rowsToMap_lookup_spec hl with ⟨j, hj, hji, hjv, hjk, _⟩
      show headKey (writeRowAt (g1.getD i []) row) = headKey (g1.getD i [])
      have hrne : row ≠ [] := by
        rw [hrow]
        intro hc
        rw [hc] at hlen
        simp at hlen
      have h1' : headKey (writeRowAt (g1.getD i []) row) = headKey row := by
        rw [headKey, headKey, writeRowAt_headD hrne]
      rw [h1', hrow]
      have hInd : i = j + 1 := by omega
      subst hInd
      rw [getD_succ_tail, hjv, headKey, headKey, hhk, hjk]

/-- Facts about the collected insert rows: each is a desired row whose id is
absent from the index. -/
theorem inserts_entry_spec {pd : String → Option Int} {iso : Int → String}
    {events : List CalEvent} {emap : List (Cell × RowEntry)} {g : Grid}
    {v : Row}
    (h : v ∈ (upsertPhase pd emap
      (buildDesiredMap (events.map (eventToRow iso))) g).2.2) :
    ∃ k, (k, v) ∈ buildDesiredMap (events.map (eventToRow iso))
      ∧ lookupKey emap k = none ∧ headKey v = k ∧ v.length = 7 := by
  rw [upsertPhase_inserts_spec] at h
  rcases List.mem_filterMap.mp h with ⟨e, he, hfe⟩
  rcases hl : lookupKey emap e.1 with _ | ex
  · rw [hl] at hfe
    simp only [Option.some_inj] at hfe
    have he2 : (e.1, e.2) ∈ buildDesiredMap (events.map (eventToRow iso)) := by
      simpa using he
    rcases dmap_entry_spec he2 with ⟨hlen, hhk, _⟩
    exact ⟨e.1, hfe ▸ he2, hl, by rw [← hfe, headKey]; exact hhk,
      by rw [← hfe]; exact hlen⟩
  · rw [hl] at hfe
    simp at hfe

theorem inserts_headKey_pairwise (pd : String → Option Int)
    (iso : Int → String) (events : List CalEvent)
    (emap : List (Cell × RowEntry)) (g : Grid) :
    (((upsertPhase pd emap
        (buildDesiredMap (events.map (eventToRow iso))) g).2.2).map
      headKey).Pairwise (· ≠ ·) := by
  rw [upsertPhase_inserts_spec]
  have hsub : ((buildDesiredMap (events.map (eventToRow iso))).filterMap
      (fun e => match lookupKey emap e.1 with
        | some _ => none
        | none => some e.2)).Sublist
      ((buildDesiredMap (events.map (eventToRow iso))).map (·.2)) := by
    apply filterMap_sublist_map
    intro a
    rcases hl : lookupKey emap a.1 with _ | ex
    · right; rfl
    · left; rfl
  have hpw : (((buildDesiredMap (events.map (eventToRow iso))).map
      (·.2)).map headKey).Pairwise (· ≠ ·) := by
    rw [List.pairwise_map, List.pairwise_map]
    refine List.Pairwise.imp_of_mem ?_ (keysDistinct_buildDesiredMap _)
    intro a b ha hb hne hc
    have ha' : (a.1, a.2) ∈ buildDesiredMap (events.map (eventToRow iso)) := by
      simpa using ha
    have hb' : (b.1, b.2) ∈ buildDesiredMap (events.map (eventToRow iso)) := by
      simpa using hb
    have hka : headKey a.2 = a.1 := (dmap_entry_spec ha').2.1
    have hkb : headKey b.2 = b.1 := (dmap_entry_spec hb').2.1
    rw [hka, hkb] at hc
    exact hne hc
  exact List.Pairwise.sublist (hsub.map headKey) hpw

/-- A reconcile pass over a store it already agrees with issues no writes:
valid header, every desired id indexed with comparator-equal values, and no
indexed absent id eligible for deletion.  The store is returned unchanged. -/
theorem sync_noop (pd : String → Option Int) (iso : Int → String)
    (events : List CalEvent) (ws we : Int) (F : Grid) (hF : F ≠ [])
    (hv : validHeader (F.headD []) = true)
    (N2 : ∀ e ∈ buildDesiredMap (events.map (eventToRow iso)),
      ∃ ex, lookupKey (rowsToMap F.tail) e.1 = some ex
        ∧ rowsEqual pd e.2 ex.values = true)
    (N3 : ∀ e ∈ rowsToMap F.tail,
      hasKey (buildDesiredMap (events.map (eventToRow iso))) e.1 = false →
      delCond pd ws we e.2.values = false) :
    syncCalendarToSheet pd iso events ws we F = F
    ∧ ensureHeader F = F
    ∧ upsertPhase pd (rowsToMap F.tail)
        (buildDesiredMap (events.map (eventToRow iso))) F = (F, [], [])
    ∧ deletePlan pd ws we (buildDesiredMap (events.map (eventToRow iso)))
        (rowsToMap F.tail) = [] := by
  have hEH : ensureHeader F = F := ensureHeader_noop hF hv
  have hU : upsertPhase pd (rowsToMap F.tail)
      (buildDesiredMap (events.map (eventToRow iso))) F = (F, [], []) :=
    upsertPhase_noop pd _ _ F N2
  have hD : deletePlan pd ws we (buildDesiredMap (events.map (eventToRow iso)))
      (rowsToMap F.tail) = [] :=
    deletePlan_nil pd ws we _ _ N3
  refine ⟨?_, hEH, hU, hD⟩
  show (sortDesc (deletePlan pd ws we
      (buildDesiredMap (events.map (eventToRow iso)))
      (rowsToMap (ensureHeader F).tail))).foldl deleteRowAt
    (if (upsertPhase pd (rowsToMap (ensureHeader F).tail)
        (buildDesiredMap (events.map (eventToRow iso)))
        (ensureHeader F)).2.2.isEmpty then
      (upsertPhase pd (rowsToMap (ensureHeader F).tail)
        (buildDesiredMap (events.map (eventToRow iso)))
        (ensureHeader F)).1
     else
      setValuesAt (upsertPhase pd (rowsToMap (ensureHeader F).tail)
          (buildDesiredMap (events.map (eventToRow iso)))
          (ensureHeader F)).1
        ((upsertPhase pd (rowsToMap (ensureHeader F).tail)
            (buildDesiredMap (events.map (eventToRow iso)))
            (ensureHeader F)).1.length + 1)
        (upsertPhase pd (rowsToMap (ensureHeader F).tail)
            (buildDesiredMap (events.map (eventToRow iso)))
            (ensureHeader F)).2.2) = F
  rw [hEH, hU, hD]
  rfl

theorem tail_map (f : Row → Cell) (l : List Row) :
    (l.map f).tail = l.tail.map f := by
  cases l <;> rfl

theorem getD_mem_of_lt {l : Grid} {j : Nat} (h : j < l.length) :
    l.getD j [] ∈ l := by
  rw [List.getD_eq_getElem?_getD, List.getElem?_eq_getElem h]
  exact List.mem_iff_getElem.mpr ⟨j, h, rfl⟩

/-- C8 (amended): on a store whose body rows carry pairwise-distinct truthy
ids, and for a desired record set whose event ids are all non-empty, a second
reconcile pass with the same desired set and window is silent: `ensureHeader`
rewrites nothing, the upsert phase issues zero updates and zero appends, the
deletion scan is empty, and the store is returned byte-identical.  (Without
the provisos this fails: an empty-id desired row is never indexed and is
appended again by every pass.) -/
theorem reconcile_idempotent (pd : String → Option Int) (iso : Int → String)
    (events : List CalEvent) (ws we : Int) (g0 : Grid)
    (H1 : ∀ e ∈ events, e.id ≠ "")
    (H2 : DistinctIds (ensureHeader g0).tail) :
    ensureHeader (syncCalendarToSheet pd iso events ws we g0)
      = syncCalendarToSheet pd iso events ws we g0
    ∧ upsertPhase pd
        (rowsToMap (syncCalendarToSheet pd iso events ws we g0).tail)
        (buildDesiredMap (events.map (eventToRow iso)))
        (syncCalendarToSheet pd iso events ws we g0)
      = (syncCalendarToSheet pd iso events ws we g0, [], [])
    ∧ deletePlan pd ws we (buildDesiredMap (events.map (eventToRow iso)))
        (rowsToMap (syncCalendarToSheet pd iso events ws we g0).tail) = []
    ∧ syncCalendarToSheet pd iso events ws we
        (syncCalendarToSheet pd iso events ws we g0)
      = syncCalendarToSheet pd iso events ws we g0 := by
  have hg1pos := ensureHeader_length_pos g0
  set g1 := ensureHeader g0 with hg1def
  set dmap := buildDesiredMap (events.map (eventToRow iso)) with hdmapdef
  set emap := rowsToMap g1.tail with hemapdef
  have hchar := upsertPhase_grid_char pd emap dmap g1
    (keysDistinct_buildDesiredMap _) (emap_lookup_inj _)
    (emap_lookup_range _ hg1pos)
  set U := upsertPhase pd emap dmap g1 with hUdef
  set plan := deletePlan pd ws we dmap emap with hplandef
  set F := syncCalendarToSheet pd iso events ws we g0 with hFdef
  have hsync : F = (sortDesc plan).foldl deleteRowAt
      (if U.2.2.isEmpty then U.1
       else setValuesAt U.1 (U.1.length + 1) U.2.2) := rfl
  have hU0 : U.1.getD 0 [] = g1.getD 0 [] := by
    rw [hchar.2 0]
    rcases hu : updTarget pd emap dmap 1 with _ | row
    · rfl
    · rcases updTarget_some_spec hu with ⟨e, _, ex, hl, hp, _, _⟩
      rcases rowsToMap_lookup_spec hl with ⟨j, _, hji, _⟩
      omega
  have hplan2 : ∀ p ∈ plan, 2 ≤ p ∧ p ≤ g1.length := by
    intro p hp
    rcases deletePlan_mem_spec hp with ⟨k, ex, hm, _, _, hpe⟩
    rcases rowsToMap_mem_spec hm with ⟨j, hj, hji, _⟩
    rw [List.length_tail] at hj
    omega
  have hUnn : U.1 ≠ [] := by
    intro hc
    have hl := hchar.1
    rw [hc] at hl
    simp at hl
    omega
  have hgI : (if U.2.2.isEmpty then U.1
      else setValuesAt U.1 (U.1.length + 1) U.2.2) = U.1 ++ U.2.2 := by
    by_cases hins : U.2.2.isEmpty = true
    · have hnil : U.2.2 = [] := by
        rcases h' : U.2.2 with _ | ⟨a, t⟩
        · rfl
        · rw [h'] at hins; simp [List.isEmpty] at hins
      rw [if_pos hins, hnil, List.append_nil]
    · rw [if_neg hins, setValuesAt_append]
  rw [hgI] at hsync
  have hsorted : (sortDesc plan).Pairwise (fun a b => b < a) := by
    rw [hplandef, hemapdef]
    exact sortDesc_deletePlan_strict pd ws we dmap g1.tail
  have hranges : ∀ p ∈ sortDesc plan, 1 ≤ p ∧ p ≤ (U.1 ++ U.2.2).length := by
    intro p hp
    have hp2 := hplan2 p ((sortDesc_perm _).mem_iff.mp hp)
    have hlen2 : g1.length ≤ (U.1 ++ U.2.2).length := by
      rw [List.length_append, hchar.1]; omega
    exact ⟨by omega, by omega⟩
  have happly := foldl_deleteRowAt_removeIdxs (sortDesc plan) (U.1 ++ U.2.2)
    hsorted hranges
  rw [happly] at hsync
  set D := (sortDesc plan).map (· - 1) with hDdef
  have hDmem : ∀ d ∈ D, 1 ≤ d ∧ d + 1 ≤ g1.length := by
    intro d hd
    rw [hDdef] at hd
    rcases List.mem_map.mp hd with ⟨q, hq, hqe⟩
    have := hplan2 q ((sortDesc_perm _).mem_iff.mp hq)
    omega
  have hzero : 0 ∉ D := fun hc => by have := (hDmem 0 hc).1; omega
  rcases hU1 : U.1 with _ | ⟨r0, tU⟩
  · exact absurd hU1 hUnn
  have htU : U.1.tail = tU := by rw [hU1, List.tail_cons]
  have hr0 : r0 = g1.getD 0 [] := by
    rw [hU1] at hU0
    simpa using hU0
  have htUlen : tU.length + 1 = g1.length := by
    have h := hchar.1
    rw [hU1] at h
    simpa using h
  rw [hU1, List.cons_append, removeIdxs_cons_not_mem hzero] at hsync
  have hFne : F ≠ [] := by rw [hsync]; simp
  have hFtail : F.tail = removeIdxsAux D 1 (tU ++ U.2.2) := by
    rw [hsync, List.tail_cons]
  have hFhead : F.headD [] = g1.headD [] := by
    rw [hsync, List.headD_cons, hr0, headD_eq_getD]
  have hFvalid : validHeader (F.headD []) = true := by
    rw [hFhead, hg1def]
    exact ensureHeader_head_valid g0
  have hheads : U.1.map headKey = g1.map headKey := by
    rw [hUdef, hemapdef, hdmapdef]
    exact upsert_map_headKey pd iso events g1 hg1pos
  have htailheads : tU.map headKey = g1.tail.map headKey := by
    have h := congrArg List.tail hheads
    rw [tail_map, tail_map, htU] at h
    exact h
  have hdistU : DistinctIds tU := distinctIds_of_map_eq htailheads H2
  have hinsPW : (U.2.2.map headKey).Pairwise (· ≠ ·) := by
    rw [hUdef, hemapdef, hdmapdef]
    exact inserts_headKey_pairwise pd iso events (rowsToMap g1.tail) g1
  have hinsSpec : ∀ v ∈ U.2.2, ∃ k, (k, v) ∈ dmap
      ∧ lookupKey emap k = none ∧ headKey v = k ∧ v.length = 7 := by
    intro v hv
    rw [hUdef, hdmapdef] at hv
    rw [hdmapdef]
    exact inserts_entry_spec hv
  have hbodyHasKey : ∀ c ∈ tU.map headKey, truthy c = true →
      hasKey emap c = true := by
    intro c hc ht
    rw [htailheads] at hc
    rcases List.mem_map.mp hc with ⟨a, ha, hae⟩
    rcases mem_getD_exists ha with ⟨j, hj, hde⟩
    have ht' : truthy ((g1.tail.getD j []).headD Cell.null) = true := by
      rw [hde, show a.headD Cell.null = headKey a from rfl, hae]
      exact ht
    have hk := rowsToMap_hasKey_of_truthy g1.tail (i := 0) (m := []) j hj ht'
    rw [hde, show a.headD Cell.null = headKey a from rfl, hae] at hk
    rw [hemapdef, rowsToMap]
    exact hk
  have hdistBody : DistinctIds (tU ++ U.2.2) := by
    show (tU ++ U.2.2).Pairwise (fun r s =>
      truthy (r.headD Cell.null) = true → truthy (s.headD Cell.null) = true →
      r.headD Cell.null ≠ s.headD Cell.null)
    refine List.pairwise_append.mpr ⟨hdistU, ?_, ?_⟩
    · have h := hinsPW
      rw [List.pairwise_map] at h
      exact h.imp (fun hne _ _ => hne)
    · intro a ha b hb ta tb hab
      rcases hinsSpec b hb with ⟨kb, hkb, hlkb, hhkb, _⟩
      have hhas : hasKey emap (headKey a) = true :=
        hbodyHasKey (headKey a) (List.mem_map.mpr ⟨a, ha, rfl⟩) ta
      have hnone : hasKey emap kb = false := by
        cases hhk : hasKey emap kb
        · rfl
        · have hs := lookupKey_isSome_iff.mpr hhk
          rw [hlkb] at hs
          simp at hs
      have hab' : headKey a = kb := by
        rw [← hhkb]
        exact hab
      rw [hab'] at hhas
      rw [hhas] at hnone
      simp at hnone
  have hdistF : DistinctIds F.tail := by
    rw [hFtail]
    exact List.Pairwise.sublist (removeIdxsAux_sublist D (tU ++ U.2.2) 1)
      hdistBody
  have hFlookup : ∀ B ∈ F.tail, truthy (headKey B) = true →
      ∃ ex, lookupKey (rowsToMap F.tail) (headKey B) = some ex
        ∧ ex.values = B := by
    intro B hB ht
    rcases mem_getD_exists hB with ⟨m, hm, hme⟩
    have hl := rowsToMap_lookup_of_distinct F.tail hdistF m hm
      (by rw [hme]; exact ht)
    rw [hme] at hl
    exact ⟨⟨m + 2, B⟩, hl, rfl⟩
  have hN2 : ∀ e ∈ dmap, ∃ ex, lookupKey (rowsToMap F.tail) e.1 = some ex
      ∧ rowsEqual pd e.2 ex.values = true := by
    intro e he
    have he' : (e.1, e.2) ∈ buildDesiredMap (events.map (eventToRow iso)) := by
      rw [hdmapdef] at he
      simpa using he
    rcases dmap_entry_spec he' with ⟨hlen, hhk, ev, hev, hrowe, hke⟩
    have htk : truthy e.1 = true := by
      rw [hke]
      exact decide_eq_true (H1 ev hev)
    have hmain : ∃ B ∈ F.tail, headKey B = e.1
        ∧ rowsEqual pd e.2 B = true := by
      rcases hl : lookupKey emap e.1 with _ | ex
      · have hvins : e.2 ∈ U.2.2 := by
          rw [hUdef, upsertPhase_inserts_spec]
          refine List.mem_filterMap.mpr ⟨e, he, ?_⟩
          rw [hl]
        rcases mem_getD_exists hvins with ⟨jv, hjv, hjve⟩
        have hgd : (tU ++ U.2.2).getD (tU.length + jv) [] = e.2 := by
          rw [getD_append_right]
          exact hjve
        have hnotD : (1 + (tU.length + jv)) ∉ D := by
          intro hc
          have := hDmem _ hc
          omega
        have hmem : e.2 ∈ F.tail := by
          rw [hFtail, ← hgd]
          exact removeIdxsAux_mem_of_not_removed (tU ++ U.2.2) 1
            (tU.length + jv) (by rw [List.length_append]; omega) hnotD
        exact ⟨e.2, hmem, hhk, rowsEqual_refl pd e.2⟩
      · rcases rowsToMap_lookup_spec hl with ⟨j, hj, hji, hjvals, hjkey, _⟩
        rw [List.length_tail] at hj
        have hjt : j < tU.length := by omega
        have hBval : rowsEqual pd e.2 (U.1.getD (j + 1) []) = true
            ∧ headKey (U.1.getD (j + 1) []) = e.1 := by
          rcases hu : updTarget pd emap dmap (j + 1 + 1) with _ | row
          · have hBeq : U.1.getD (j + 1) [] = g1.getD (j + 1) [] := by
              rw [hchar.2 (j + 1), hu]
            have hre : rowsEqual pd e.2 ex.values = true :=
              updTarget_none_spec hu e he ex hl (by omega)
            constructor
            · rw [hBeq, getD_succ_tail, hjvals]
              exact hre
            · rw [hBeq, getD_succ_tail, hjvals]
              exact hjkey
          · rcases updTarget_some_spec hu with
              ⟨e', he'2, ex', hl', hp', hre', hrow'⟩
            have hkeq : e'.1 = e.1 :=
              emap_lookup_inj g1.tail e'.1 e.1 ex' ex hl' hl (by omega)
            have he'm : (e.1, e'.2)
                ∈ buildDesiredMap (events.map (eventToRow iso)) := by
              rw [← hkeq]
              rw [hdmapdef] at he'2
              simpa using he'2
            have hv' : e'.2 = e.2 :=
              mem_unique_of_keysDistinct (keysDistinct_buildDesiredMap _)
                he'm he'
            have hBeq : U.1.getD (j + 1) []
                = writeRowAt (g1.getD (j + 1) []) e.2 := by
              rw [hchar.2 (j + 1), hu, hrow', hv']
            have hne2 : e.2 ≠ [] := by
              intro hc
              rw [hc] at hlen
              simp at hlen
            constructor
            · rw [hBeq, writeRowAt]
              exact rowsEqual_refl_append pd e.2 _
            · rw [hBeq]
              show (writeRowAt (g1.getD (j + 1) []) e.2).headD Cell.null = e.1
              rw [writeRowAt_headD hne2]
              exact hhk
        have hnotD : (1 + j) ∉ D := by
          intro hc
          rw [hDdef] at hc
          rcases List.mem_map.mp hc with ⟨q, hq, hqe⟩
          have hqp : q ∈ plan := (sortDesc_perm _).mem_iff.mp hq
          rcases deletePlan_mem_spec hqp with ⟨k'', ex'', hm'', hnk'', _, hqe'⟩
          have hq2 := hplan2 q hqp
          have hkk : k'' = e.1 :=
            rowsToMap_rowIndex_inj hm'' (lookupKey_mem hl) (by omega)
          have hhd : hasKey dmap e.1 = true :=
            hasKey_iff_mem.mpr ⟨e.2, by simpa using he⟩
          rw [hkk] at hnk''
          rw [hhd] at hnk''
          simp at hnk''
        have hg : (tU ++ U.2.2).getD j [] = U.1.getD (j + 1) [] := by
          rw [getD_append_left hjt, ← htU, ← getD_succ_tail]
        have hmem : U.1.getD (j + 1) [] ∈ F.tail := by
          rw [hFtail, ← hg]
          exact removeIdxsAux_mem_of_not_removed (tU ++ U.2.2) 1 j
            (by rw [List.length_append]; omega) hnotD
        exact ⟨U.1.getD (j + 1) [], hmem, hBval.2, hBval.1⟩
    rcases hmain with ⟨B, hBmem, hBkey, hBeq⟩
    rcases hFlookup B hBmem (by rw [hBkey]; exact htk) with ⟨ex, hex, hexv⟩
    refine ⟨ex, ?_, ?_⟩
    · rw [← hBkey]
      exact hex
    · rw [hexv]
      exact hBeq
  have hN3 : ∀ e ∈ rowsToMap F.tail, hasKey dmap e.1 = false →
      delCond pd ws we e.2.values = false := by
    intro e he hnk
    rcases rowsToMap_mem_spec
      (show (e.1, e.2) ∈ rowsToMap F.tail from by simpa using he) with
      ⟨m, hm, hmi, hmv, hmk, hmt⟩
    have hBmem : e.2.values ∈ F.tail := by
      rw [← hmv]
      exact getD_mem_of_lt hm
    rw [hFtail] at hBmem
    rcases removeIdxsAux_mem_spec hBmem with ⟨j, hjlen, hjD, hjval⟩
    rw [List.length_append] at hjlen
    by_cases hjcase : j < tU.length
    · have hgd : (tU ++ U.2.2).getD j [] = U.1.getD (j + 1) [] := by
        rw [getD_append_left hjcase, ← htU, ← getD_succ_tail]
      have hjg : j < g1.tail.length := by
        rw [List.length_tail]
        omega
      cases hdc : delCond pd ws we e.2.values
      · rfl
      · exfalso
        have hrowU := hchar.2 (j + 1)
        rcases hu : updTarget pd emap dmap (j + 1 + 1) with _ | row
        · rw [hu] at hrowU
          simp only [] at hrowU
          have hBg : g1.tail.getD j [] = e.2.values := by
            rw [← getD_succ_tail, ← hrowU, ← hgd, hjval]
          have htB : truthy ((g1.tail.getD j []).headD Cell.null) = true := by
            rw [hBg, show e.2.values.headD Cell.null = e.1 from hmk]
            exact hmt
          have hlook := rowsToMap_lookup_of_distinct g1.tail H2 j hjg htB
          have hmem2 : ((g1.tail.getD j []).headD Cell.null,
              (⟨j + 2, g1.tail.getD j []⟩ : RowEntry)) ∈ emap :=
            lookupKey_mem hlook
          have hplanmem : (j + 2) ∈ plan := by
            rw [hplandef]
            refine deletePlan_mem_of hmem2 ?_ ?_
            · rw [hBg, show e.2.values.headD Cell.null = e.1 from hmk]
              exact hnk
            · show delCond pd ws we (g1.tail.getD j []) = true
              rw [hBg]
              exact hdc
          have hjd2 : (1 + j) ∈ D := by
            rw [hDdef]
            exact List.mem_map.mpr
              ⟨j + 2, (sortDesc_perm plan).mem_iff.mpr hplanmem, by omega⟩
          exact hjD hjd2
        · rw [hu] at hrowU
          simp only [] at hrowU
          rcases updTarget_some_spec hu with
            ⟨e', he'2, ex', hl', hp', _, hrow'⟩
          have he'm : (e'.1, e'.2)
              ∈ buildDesiredMap (events.map (eventToRow iso)) := by
            rw [hdmapdef] at he'2
            simpa using he'2
          rcases dmap_entry_spec he'm with ⟨hlen', hhk', _⟩
          have hne' : e'.2 ≠ [] := by
            intro hc
            rw [hc] at hlen'
            simp at hlen'
          have hheadB : e.1 = e'.1 := by
            rw [← hmk, ← hjval, hgd, hrowU, hrow']
            exact (writeRowAt_headD hne').trans hhk'
          have hhd : hasKey dmap e.1 = true := by
            rw [hheadB, hdmapdef]
            exact hasKey_iff_mem.mpr ⟨e'.2, he'm⟩
          rw [hhd] at hnk
          simp at hnk
    · push_neg at hjcase
      have hj2 : j = tU.length + (j - tU.length) := by omega
      have hgd : (tU ++ U.2.2).getD (tU.length + (j - tU.length)) []
          = U.2.2.getD (j - tU.length) [] := getD_append_right
      rw [← hj2] at hgd
      have hmem3 : U.2.2.getD (j - tU.length) [] ∈ U.2.2 :=
        getD_mem_of_lt (by omega)
      rcases hinsSpec _ hmem3 with ⟨kb, hkb, _, hhkb, _⟩
      have hek : e.1 = kb := by
        rw [← hmk, ← hjval, hgd]
        exact hhkb
      have hhd : hasKey dmap e.1 = true := by
        rw [hek]
        exact hasKey_iff_mem.mpr ⟨_, hkb⟩
      rw [hhd] at hnk
      simp at hnk
  have hN2' : ∀ e ∈ buildDesiredMap (events.map (eventToRow iso)),
      ∃ ex, lookupKey (rowsToMap F.tail) e.1 = some ex
        ∧ rowsEqual pd e.2 ex.values = true := by
    rw [← hdmapdef]
    exact hN2
  have hN3' : ∀ e ∈ rowsToMap F.tail,
      hasKey (buildDesiredMap (events.map (eventToRow iso))) e.1 = false →
      delCond pd ws we e.2.values = false := by
    rw [← hdmapdef]
    exact hN3
  have hfinal := sync_noop pd iso events ws we F hFne hFvalid hN2' hN3'
  rw [hdmapdef]
  exact ⟨hfinal.2.1, hfinal.2.2.1, hfinal.2.2.2, hfinal.1⟩

/-- Concrete run of the idempotence theorem: one event with a non-empty id
over a store holding only the header; both hypotheses hold and the second
pass returns the store of the first unchanged. -/
theorem reconcile_idempotent_witness :
    (∀ e ∈ ([⟨"a", "t", 5, 6, "", "", []⟩] : List CalEvent), e.id ≠ "")
    ∧ DistinctIds (ensureHeader ([expectedHeader] : Grid)).tail
    ∧ syncCalendarToSheet pdFix isoFix [⟨"a", "t", 5, 6, "", "", []⟩] 0 10
        (syncCalendarToSheet pdFix isoFix [⟨"a", "t", 5, 6, "", "", []⟩] 0 10
          [expectedHeader])
      = syncCalendarToSheet pdFix isoFix [⟨"a", "t", 5, 6, "", "", []⟩] 0 10
          [expectedHeader] :=
  ⟨by decide, List.Pairwise.nil,
   (reconcile_idempotent pdFix isoFix [⟨"a", "t", 5, 6, "", "", []⟩] 0 10
      [expectedHeader] (by decide) List.Pairwise.nil).2.2.2⟩

/-- A desired record with an empty id is skipped by the row index
(`rowsToMap` drops falsy first cells), so each pass appends it again: the
literal claim fails on such inputs. -/
theorem reconcile_idempotent_counterexample :
    syncCalendarToSheet pdFix isoFix [⟨"", "t", 5, 6, "", "", []⟩] 0 10
        (syncCalendarToSheet pdFix isoFix [⟨"", "t", 5, 6, "", "", []⟩] 0 10
          [expectedHeader])
      ≠ syncCalendarToSheet pdFix isoFix [⟨"", "t", 5, 6, "", "", []⟩] 0 10
          [expectedHeader] := by
  decide

end CalSync
